import Mathlib

/-!
Verification of the Batcher banyan-network sorter in `src/Validate/banyan.cu`.

Keys are `float` in the source; the claims under study are purely order-theoretic,
so keys are modelled as `Int` with its linear order.

Kernel semantics: every kernel is launched with a grid-stride (or block-chunk)
loop whose iterations touch pairwise disjoint locations, and every launch is
followed by `cudaDeviceSynchronize()` (and `__syncthreads()` separates the
scatter and copy-back loops inside a block), so each launch denotes a pure
function on the array and the whole driver is their sequential composition.
-/

namespace Banyan

/-- The guarded swap of `compareAndSwap` (banyan.cu lines 87-96) on one
comparator's operand pair: `comp_bool = (comp_ind & (0x1 << level))` as a Bool,
swap when `(comp_bool && in0 < in1) || (!comp_bool && in0 >= in1)`. -/
def cmpSwapPair (comp_bool : Bool) (p : Int × Int) : Int × Int :=
  if (comp_bool && decide (p.1 < p.2)) || (!comp_bool && decide (p.1 ≥ p.2)) then
    (p.2, p.1)
  else
    p

/-- `comp_bool` of comparator `c` at `level`: `(bool)(comp_ind & (0x1 << level))`
(banyan.cu line 87).  All quantities fit far below 2^64, so `Nat` bitwise
arithmetic coincides with the C `unsigned long` arithmetic. -/
def compBool (level c : Nat) : Bool :=
  decide ((c &&& (1 <<< level)) ≠ 0)

/-- Effect of one `compareAndSwap` launch on the `N`-element key array
(banyan.cu lines 77-98).  The kernel's grid-stride loop runs comparators
`comp_ind ∈ [0, N)`; comparator `c` touches key indices `2c` and `2c+1`, so the
comparators with `c ≥ N/2` touch only indices `≥ N`, outside the array (see
`compareAndSwapKeyAccesses` for the raw access set) and the array-visible
effect is that of the comparators `c < N/2`: position `i` is the first or
second output of comparator `i / 2`. -/
def compPass (level : Nat) (l : List Int) : List Int :=
  (List.range l.length).map fun i =>
    let c := i / 2
    let p := cmpSwapPair (compBool level c) (l.getD (2 * c) 0, l.getD (2 * c + 1) 0)
    if i % 2 = 0 then p.1 else p.2

/-- The comparator positions executed by one `compareAndSwap` launch: the
grid-stride loop (banyan.cu lines 81-83) covers every `comp_ind < N`. -/
def compareAndSwapComparators (N : Nat) : List Nat :=
  List.range N

/-- The key-array indices read or written by one `compareAndSwap` launch:
comparator `comp_ind` accesses `in[2*comp_ind]` and `in[2*comp_ind+1]`
(banyan.cu lines 91-95). -/
def compareAndSwapKeyAccesses (N : Nat) : List Nat :=
  (compareAndSwapComparators N).flatMap fun c => [2 * c, 2 * c + 1]

/-- Source index read by output position `p` of a size-`size` chunk in
`shuffleN` (banyan.cu lines 26-38): `p/2` when `p` is even, `size/2 + p/2`
when `p` is odd. -/
def shuffleSrc (size p : Nat) : Nat :=
  if p % 2 = 0 then p / 2 else size / 2 + p / 2

/-- Source index read by output position `p` of a size-`size` chunk in
`butterflyN` (banyan.cu lines 53-65).  For `size ≥ 2` (every launch uses
`size ≥ 4`) the `Nat` subtraction agrees with the C `int` arithmetic. -/
def butterflySrc (size p : Nat) : Nat :=
  if p < size / 2 then
    if p % 2 = 0 then p else p + (size / 2 - 1)
  else
    if p % 2 = 0 then p - (size / 2 - 1) else p

/-- Effect of a permutation kernel launch `<<<div, threadNum>>>` on the array:
block `b` handles the chunk at `ind_in_base = b * size`, writing
`out[base + p] = in[base + src p]` and copying back after `__syncthreads()`
(banyan.cu lines 23-42 and 50-72). -/
def gatherChunks (src : Nat → Nat) (size : Nat) (l : List Int) : List Int :=
  (List.range l.length).map fun i =>
    l.getD ((i / size) * size + src (i % size)) 0

/-- Kernel launches performed by `benyan`, in order, tagged with the loop
counters at the launch site. -/
inductive Event where
  | compA (stage substage level : Nat)
  | shuf (size : Nat)
  | compB (stage substage level : Nat)
  | bfly (size : Nat)
  deriving DecidableEq, Repr

/-- Inner `while (substage <= stage)` loop of `benyan` (banyan.cu lines
113-138), by structural recursion on `r = stage + 1 - substage` (the body
increments `substage` whenever it does not break, so `r` counts the remaining
iterations).  Per iteration: `compareAndSwap` at the current `level`; if
`stage < n-1` then (at `substage = 0` only) `shuffleN` on chunks of
`size = 2^(2+stage-substage)` followed by `level++`, then a second
`compareAndSwap` and `butterflyN`; otherwise `break`.  The chunk size is
`N/div` with `div = N/(pow(2,2+stage-substage))`, i.e. `2^(2+stage-substage)`.
(`n = 0` never reaches this loop, so the C comparison `stage < n-1` on the
unsigned `n` is `stage + 1 < n`.) -/
def benyanInner (n stage : Nat) :
    Nat → Nat → Nat → List Int → Nat × List Int × List Event
  | 0, _, level, l => (level, l, [])
  | r + 1, substage, level, l =>
    let l1 := compPass level l
    if stage + 1 < n then
      let size := 2 ^ (2 + stage - substage)
      let step :=
        if substage = 0 then
          (gatherChunks (shuffleSrc size) size l1, [Event.shuf size], level + 1)
        else
          (l1, ([] : List Event), level)
      let l3 := compPass step.2.2 step.1
      let l4 := gatherChunks (butterflySrc size) size l3
      let rest := benyanInner n stage r (substage + 1) step.2.2 l4
      (rest.1, rest.2.1,
        Event.compA stage substage level :: step.2.1 ++
          Event.compB stage substage step.2.2 :: Event.bfly size :: rest.2.2)
    else
      (level, l1, [Event.compA stage substage level])

/-- Outer `while (stage < n)` loop of `benyan` (banyan.cu lines 112-141), by
structural recursion on `r = n - stage`. -/
def benyanOuter (n : Nat) :
    Nat → Nat → Nat → List Int → List Int × List Event
  | 0, _, _, l => (l, [])
  | r + 1, stage, level, l =>
    let inner := benyanInner n stage (stage + 1) 0 level l
    let rest := benyanOuter n r (stage + 1) inner.1 inner.2.1
    (rest.1, inner.2.2 ++ rest.2)

/-- The key array after `benyan(x, y, comparators, N, n)` returns, for
`N = 2^n` elements. -/
def benyanRun (n : Nat) (l : List Int) : List Int :=
  (benyanOuter n n 0 0 l).1

/-- The sequence of kernel launches `benyan` performs. -/
def benyanTrace (n : Nat) (l : List Int) : List Event :=
  (benyanOuter n n 0 0 l).2

/-- The substage values of the phase-(a) `compareAndSwap` launches (the launch
at banyan.cu line 116, the first one of each inner-loop iteration) that a trace
records for stage `s`, in launch order. -/
def substagesA (s : Nat) (tr : List Event) : List Nat :=
  tr.filterMap fun e =>
    match e with
    | Event.compA s' t _ => if s' = s then some t else none
    | _ => none

/-- The kernel-launch events of `benyanInner`, as a pure function of the loop
counters (the launches do not depend on the key data). -/
def innerEvents (n stage : Nat) : Nat → Nat → Nat → List Event
  | 0, _, _ => []
  | r + 1, t, level =>
    if stage + 1 < n then
      let lv' := if t = 0 then level + 1 else level
      Event.compA stage t level ::
        (if t = 0 then [Event.shuf (2 ^ (2 + stage - t))] else []) ++
        Event.compB stage t lv' :: Event.bfly (2 ^ (2 + stage - t)) ::
        innerEvents n stage r (t + 1) lv'
    else
      [Event.compA stage t level]

/-- The kernel-launch events of `benyanOuter`, as a pure function of the loop
counters. -/
def outerEvents (n : Nat) : Nat → Nat → Nat → List Event
  | 0, _, _ => []
  | r + 1, stage, level =>
    innerEvents n stage (stage + 1) 0 level ++
      outerEvents n r (stage + 1) (if stage + 1 < n then level + 1 else level)

/-- `getN` (banyan.cu lines 9-15): `N = 2; while (N < size) N = N*2; return N`.
The guard `0 < N` only rules out the state `N = 0`, which the function never
reaches (it starts from `N = 2` and doubles). -/
def getNLoop (size : Nat) (N : Nat) : Nat :=
  if h : 0 < N ∧ N < size then getNLoop size (N * 2) else N
termination_by size - N
decreasing_by omega

def getN (size : Nat) : Nat :=
  getNLoop size 2

/-- `UP` (banyan.cu line 388). -/
def UP : Int := 0

/-- `DOWN` (banyan.cu line 389). -/
def DOWN : Int := 1

/-- `compare_and_switch` (banyan.cu lines 391-406): two sequential guarded
swaps, one for `direction == UP` (swap when `*in1 > *in0`) and one for
`direction == DOWN` (swap when `*in0 > *in1`). -/
def compare_and_switch (direction : Int) (p : Int × Int) : Int × Int :=
  let p1 := if direction = UP ∧ p.2 > p.1 then (p.2, p.1) else p
  if direction = DOWN ∧ p1.1 > p1.2 then (p1.2, p1.1) else p1

/-- Modelled from the spec: `IsPowerOfTwo` is declared in `helper_nov.h`,
which is not under src/; per the spec it recognises exactly the powers of two.
(The bound `k ≤ N` loses nothing: `N = 2^k` forces `k ≤ N`.) -/
def IsPowerOfTwo (N : Nat) : Bool :=
  decide (∃ k, k ≤ N ∧ N = 2 ^ k)

/-- The steps of one benchmark iteration of `main` that C8 is about. -/
inductive MainStep where
  | powerCheck
  | allocateDeviceBuffer
  | launchNetwork
  deriving DecidableEq, Repr

/-- One iteration of `main`'s benchmark loop (banyan.cu lines 196-296),
abstracted to the steps the claim is about, in program order: the
power-of-two check with `exit(1)` (lines 205-209), the device allocation
`cudaMallocManaged` (line 226), and the network launch (line 247).  The
second component is the exit status when the iteration terminates the
process. -/
def mainIteration (N : Nat) : List MainStep × Option Nat :=
  if !IsPowerOfTwo N then
    ([MainStep.powerCheck], some 1)
  else
    ([MainStep.powerCheck, MainStep.allocateDeviceBuffer, MainStep.launchNetwork], none)

/-- Destination of source index `j` under one `shuffleN` application on a
size-`size` chunk: the inverse of the gather map `shuffleSrc` (not in the
source; used to express where the kernel routes each element). -/
def shuffleDst (size j : Nat) : Nat :=
  if j < size / 2 then 2 * j else 2 * (j - size / 2) + 1

/-! ### Decomposition of `benyan` into merge stages (for C1)

The functions below are not new modelling: they are the building blocks of
`benyanInner`/`benyanOuter` regrouped so that one merge stage becomes one
function, which the correctness proof then analyses chunk by chunk. -/

/-- One `compareAndSwap` pass restricted to a chunk on which the direction bit
is constant: every adjacent pair `(2c, 2c+1)` is compare-exchanged with the
same `comp_bool = d`. -/
def pairsComp (d : Bool) (l : List Int) : List Int :=
  (List.range l.length).map fun i =>
    let p := cmpSwapPair d (l.getD (2 * (i / 2)) 0, l.getD (2 * (i / 2) + 1) 0)
    if i % 2 = 0 then p.1 else p.2

/-- The distance-`m` compare-exchange on a list of length `2m` (`m = length/2`):
position `j < m` holds the first output and position `j + m` the second output
of the comparator on `(x_j, x_{j+m})`.  This is the classical bitonic-merge
step; `shuffleN ; compareAndSwap ; butterflyN` realises it (see
`shuffle_comp_butterfly`). -/
def distComp (d : Bool) (l : List Int) : List Int :=
  (List.range l.length).map fun i =>
    let m := l.length / 2
    if i < m then (cmpSwapPair d (l.getD i 0, l.getD (i + m) 0)).1
    else (cmpSwapPair d (l.getD (i - m) 0, l.getD i 0)).2

/-- The substage loop `t = 1..s` of one merge stage, restricted to a chunk with
constant direction bit: each iteration is the two `compareAndSwap` launches
followed by `butterflyN` on sub-chunks of the current size `C`, which then
halves. -/
def mergeLoop (d : Bool) : Nat → Nat → List Int → List Int
  | 0, _, x => x
  | r + 1, C, x =>
    mergeLoop d r (C / 2) (gatherChunks (butterflySrc C) C (pairsComp d (pairsComp d x)))

/-- One full merge stage `s` of `benyan` restricted to a single
`2^(s+2)`-element chunk whose direction bit is `d`, from the state right after
the stage's first `compareAndSwap` launch up to and including the next stage's
first `compareAndSwap` launch. -/
def mergeSeq (s : Nat) (d : Bool) (x : List Int) : List Int :=
  pairsComp d (mergeLoop d s (2 ^ (s + 1))
    (gatherChunks (butterflySrc (2 ^ (s + 2))) (2 ^ (s + 2)) (pairsComp d
      (gatherChunks (shuffleSrc (2 ^ (s + 2))) (2 ^ (s + 2)) x))))

/-- The substage loop `t = 1..s` of stage `s` on the whole array: two
`compareAndSwap` launches at the current level and a `butterflyN` launch on
chunks of the current size, which then halves (banyan.cu lines 127-133). -/
def stageLoop (lvl : Nat) : Nat → Nat → List Int → List Int
  | 0, _, x => x
  | r + 1, C, x =>
    stageLoop lvl r (C / 2) (gatherChunks (butterflySrc C) C (compPass lvl (compPass lvl x)))

/-- One full non-final stage `s` of `benyan` on the whole array, starting with
the stage's first `compareAndSwap` launch (level `s`): compare, shuffle,
compare at level `s+1`, butterfly, then the substage loop. -/
def fullStage (s : Nat) (l : List Int) : List Int :=
  stageLoop (s + 1) s (2 ^ (s + 1))
    (gatherChunks (butterflySrc (2 ^ (s + 2))) (2 ^ (s + 2)) (compPass (s + 1)
      (gatherChunks (shuffleSrc (2 ^ (s + 2))) (2 ^ (s + 2)) (compPass s l))))

/-- The data transformation of `benyan`'s outer loop from stage `st` on, with
`r` stages remaining, excluding the final stage's single `compareAndSwap`
launch (which `benyanRun_decompose` reattaches). -/
def stagesFrom : Nat → Nat → List Int → List Int
  | _, 0, x => x
  | _, 1, x => x
  | st, r + 2, x => stagesFrom (st + 1) (r + 1) (fullStage st x)

/-- The chunk of `C` elements starting at position `J*C`. -/
def chunk (J C : Nat) (x : List Int) : List Int :=
  (x.drop (J * C)).take C

/-- The array transformation between the first `compareAndSwap` launch of stage
`s` and the first `compareAndSwap` launch of stage `s+1`: shuffle, compare at
level `s+1`, butterfly, the substage loop, and stage `s+1`'s opening compare.
Regrouping the stage boundaries this way aligns each step with one complete
bitonic merge (`mergeSeq`) on every chunk of `2^(s+2)` keys. -/
def stageStep (s : Nat) (z : List Int) : List Int :=
  compPass (s + 1) (stageLoop (s + 1) s (2 ^ (s + 1))
    (gatherChunks (butterflySrc (2 ^ (s + 2))) (2 ^ (s + 2)) (compPass (s + 1)
      (gatherChunks (shuffleSrc (2 ^ (s + 2))) (2 ^ (s + 2)) z))))

/-- `k` consecutive regrouped stages starting at stage `st`. -/
def zIter : Nat → Nat → List Int → List Int
  | _, 0, z => z
  | st, k + 1, z => zIter (st + 1) k (stageStep st z)

/-- Every element is the key 0 or the key 1. -/
def Val01 (l : List Int) : Prop :=
  ∀ x ∈ l, x = 0 ∨ x = 1

/-- The ones of the 0-1 list `x` form the cyclic interval `[a, a+b)` modulo
`x.length`; 0-1 lists of this shape are exactly the bitonic 0-1 lists. -/
def OnesCyc (x : List Int) (a b : Nat) : Prop :=
  ∀ i < x.length,
    (x.getD i 0 = 1 ↔ (a ≤ i ∧ i < a + b) ∨ (a ≤ i + x.length ∧ i + x.length < a + b))

/-- Bitonic 0-1 list: the ones form a cyclic interval. -/
def Bitonic01 (x : List Int) : Prop :=
  ∃ a b, a ≤ x.length ∧ b ≤ x.length ∧ OnesCyc x a b

/-- Ascending 0-1 indicator form: zeros then ones, threshold `q`. -/
def StepUp (x : List Int) (q : Nat) : Prop :=
  ∀ i < x.length, (x.getD i 0 = 1 ↔ q ≤ i)

/-- Descending 0-1 indicator form: ones then zeros, threshold `q`. -/
def StepDn (x : List Int) (q : Nat) : Prop :=
  ∀ i < x.length, (x.getD i 0 = 1 ↔ i < q)

instance (l : List Int) : Decidable (Val01 l) := by
  unfold Val01
  infer_instance

instance (x : List Int) (a b : Nat) : Decidable (OnesCyc x a b) := by
  unfold OnesCyc
  infer_instance

instance (x : List Int) (q : Nat) : Decidable (StepUp x q) := by
  unfold StepUp
  infer_instance

instance (x : List Int) (q : Nat) : Decidable (StepDn x q) := by
  unfold StepDn
  infer_instance

/-! ### Helper lemmas -/

lemma getNLoop_ge (size : Nat) : ∀ N, 0 < N → size ≤ getNLoop size N := by
  refine getNLoop.induct size (fun N => 0 < N → size ≤ getNLoop size N) ?_ ?_
  · intro N hrec ih _
    rw [getNLoop, dif_pos hrec]
    exact ih (by omega)
  · intro N hrec h
    rw [getNLoop, dif_neg hrec]
    omega

lemma getNLoop_pow (size : Nat) : ∀ N, ∃ j, getNLoop size N = N * 2 ^ j := by
  refine getNLoop.induct size (fun N => ∃ j, getNLoop size N = N * 2 ^ j) ?_ ?_
  · intro N hrec ih
    rw [getNLoop, dif_pos hrec]
    obtain ⟨j, hj⟩ := ih
    exact ⟨j + 1, by rw [hj]; ring⟩
  · intro N hrec
    exact ⟨0, by rw [getNLoop, dif_neg hrec]; ring⟩

lemma getNLoop_min (size : Nat) :
    ∀ N, ∀ j, size ≤ N * 2 ^ j → getNLoop size N ≤ N * 2 ^ j := by
  refine getNLoop.induct size
    (fun N => ∀ j, size ≤ N * 2 ^ j → getNLoop size N ≤ N * 2 ^ j) ?_ ?_
  · intro N hrec ih j hj
    rw [getNLoop, dif_pos hrec]
    match j with
    | 0 => omega
    | j + 1 =>
      have e1 : N * 2 ^ (j + 1) = N * 2 * 2 ^ j := by ring
      have := ih j (by omega)
      omega
  · intro N hrec j _
    rw [getNLoop, dif_neg hrec]
    have h1 : 1 ≤ 2 ^ j := Nat.one_le_two_pow
    calc N = N * 1 := by ring
      _ ≤ N * 2 ^ j := Nat.mul_le_mul_left N h1

lemma shuffleSrc_lt (m : Nat) {p : Nat} (hp : p < 2 * m) :
    shuffleSrc (2 * m) p < 2 * m := by
  unfold shuffleSrc; split_ifs <;> omega

lemma shuffleDst_lt (m : Nat) {j : Nat} (hj : j < 2 * m) :
    shuffleDst (2 * m) j < 2 * m := by
  unfold shuffleDst; split_ifs <;> omega

lemma shuffleDst_src (m : Nat) {p : Nat} (hp : p < 2 * m) :
    shuffleDst (2 * m) (shuffleSrc (2 * m) p) = p := by
  simp only [shuffleSrc, shuffleDst]; split_ifs <;> omega

lemma shuffleSrc_dst (m : Nat) {j : Nat} (hj : j < 2 * m) :
    shuffleSrc (2 * m) (shuffleDst (2 * m) j) = j := by
  simp only [shuffleSrc, shuffleDst]; split_ifs <;> omega

lemma butterflySrc_lt (m : Nat) {p : Nat} (hp : p < 2 * m) :
    butterflySrc (2 * m) p < 2 * m := by
  unfold butterflySrc; split_ifs <;> omega

lemma butterflySrc_invol (m : Nat) (hpar : m = 1 ∨ 2 ∣ m) {p : Nat}
    (hp : p < 2 * m) :
    butterflySrc (2 * m) (butterflySrc (2 * m) p) = p := by
  unfold butterflySrc; split_ifs <;> omega

lemma two_pow_succ_eq (k : Nat) : 2 ^ (k + 1) = 2 * 2 ^ k := by
  rw [pow_succ]; ring

lemma two_pow_par (k : Nat) : 2 ^ k = 1 ∨ 2 ∣ 2 ^ k := by
  rcases Nat.eq_zero_or_pos k with rfl | hk
  · exact Or.inl rfl
  · exact Or.inr (dvd_pow_self 2 hk.ne')

lemma cmpSwapPair_false (a b : Int) :
    cmpSwapPair false (a, b) = (min a b, max a b) := by
  simp only [cmpSwapPair, Bool.false_and, Bool.not_false, Bool.true_and, Bool.false_or]
  split_ifs with h <;> simp only [decide_eq_true_eq] at * <;>
    (rw [Prod.mk.injEq]; constructor <;> omega)

lemma cmpSwapPair_true (a b : Int) :
    cmpSwapPair true (a, b) = (max a b, min a b) := by
  simp only [cmpSwapPair, Bool.true_and, Bool.not_true, Bool.false_and, Bool.or_false]
  split_ifs with h <;> simp only [decide_eq_true_eq] at * <;>
    (rw [Prod.mk.injEq]; constructor <;> omega)

/-! ### Claim theorems (C2-C10) -/

/-- C10: for every `size ≥ 1`, `getN size` is the smallest power of two that is
both `≥ size` and `≥ 2`; in particular `getN size = size` whenever `size` is a
power of two with `size ≥ 2`, and `getN 1 = 2`. -/
theorem getN_spec (size : Nat) (h : 1 ≤ size) :
    (∃ k, getN size = 2 ^ k) ∧
    2 ≤ getN size ∧
    size ≤ getN size ∧
    (∀ m k, m = 2 ^ k → 2 ≤ m → size ≤ m → getN size ≤ m) ∧
    (∀ k, 1 ≤ k → size = 2 ^ k → getN size = size) ∧
    getN 1 = 2 := by
  have hdef : getN size = getNLoop size 2 := rfl
  obtain ⟨j, hj⟩ := getNLoop_pow size 2
  have hge : size ≤ getN size := getNLoop_ge size 2 (by omega)
  have hmin : ∀ m k, m = 2 ^ k → 2 ≤ m → size ≤ m → getN size ≤ m := by
    rintro m k rfl h2 hsz
    match k with
    | 0 => norm_num at h2
    | k + 1 =>
      have := getNLoop_min size 2 k (by rw [two_pow_succ_eq] at hsz; omega)
      rw [two_pow_succ_eq]
      omega
  have h2le : 2 ≤ getN size := by
    have : 1 ≤ 2 ^ j := Nat.one_le_two_pow
    rw [hdef, hj]
    omega
  have h1 : getN 1 = 2 := by
    have hle := getNLoop_min 1 2 0 (by norm_num)
    obtain ⟨j1, hj1⟩ := getNLoop_pow 1 2
    have hp1 : 1 ≤ 2 ^ j1 := Nat.one_le_two_pow
    norm_num at hle
    show getNLoop 1 2 = 2
    omega
  refine ⟨⟨j + 1, by rw [two_pow_succ_eq, hdef]; omega⟩, h2le, hge, hmin, ?_, h1⟩
  intro k hk hsz
  have hle := hmin size k hsz (by rw [hsz]; exact Nat.one_lt_two_pow_iff.mpr (by omega)) le_rfl
  omega

/-- Witness for C10 at `size = 3`. -/
theorem getN_spec_witness :
    1 ≤ 3 ∧
    ((∃ k, getN 3 = 2 ^ k) ∧
      2 ≤ getN 3 ∧
      3 ≤ getN 3 ∧
      (∀ m k, m = 2 ^ k → 2 ≤ m → 3 ≤ m → getN 3 ≤ m) ∧
      (∀ k, 1 ≤ k → 3 = 2 ^ k → getN 3 = 3) ∧
      getN 1 = 2) :=
  ⟨by norm_num, getN_spec 3 (by norm_num)⟩

/-- C5: the compare-exchange primitives reorder their two operands in place:
for `compareAndSwap`'s guarded swap the flag value `false` (ascending) puts the
smaller key first and `true` (descending) puts the larger key first; for
`compare_and_switch` the direction `DOWN` puts the smaller key first and `UP`
the larger key first.  Each result is a rearrangement of exactly the two
operands. -/
theorem compare_exchange_contract (k0 k1 : Int) :
    cmpSwapPair false (k0, k1) = (min k0 k1, max k0 k1) ∧
    cmpSwapPair true (k0, k1) = (max k0 k1, min k0 k1) ∧
    compare_and_switch DOWN (k0, k1) = (min k0 k1, max k0 k1) ∧
    compare_and_switch UP (k0, k1) = (max k0 k1, min k0 k1) := by
  refine ⟨cmpSwapPair_false k0 k1, cmpSwapPair_true k0 k1, ?_, ?_⟩ <;>
    · unfold compare_and_switch UP DOWN
      norm_num
      split_ifs <;> (rw [Prod.mk.injEq]; constructor <;> omega)

/-- C6: on a pair of equal keys, both primitives leave both key positions
holding the same key values as before, for every direction value. -/
theorem equal_keys_no_effect (b : Bool) (d k : Int) :
    cmpSwapPair b (k, k) = (k, k) ∧ compare_and_switch d (k, k) = (k, k) := by
  unfold cmpSwapPair compare_and_switch
  split_ifs <;> simp_all

/-- C2: for every power-of-two chunk size `S = 2^(k+1)` (every chunk has two
halves; every launch in `benyan` uses `S ≥ 4`), the index mapping of one
`shuffleN` application and the index mapping of one `butterflyN` application
are each bijections of `[0, S)`: across all output positions every source
index is read exactly once. -/
theorem permutation_bijection (k : Nat) :
    Set.BijOn (shuffleSrc (2 ^ (k + 1))) (Set.Iio (2 ^ (k + 1))) (Set.Iio (2 ^ (k + 1))) ∧
    Set.BijOn (butterflySrc (2 ^ (k + 1))) (Set.Iio (2 ^ (k + 1))) (Set.Iio (2 ^ (k + 1))) := by
  rw [two_pow_succ_eq]
  constructor
  · have hinv : Set.InvOn (shuffleDst (2 * 2 ^ k)) (shuffleSrc (2 * 2 ^ k))
        (Set.Iio (2 * 2 ^ k)) (Set.Iio (2 * 2 ^ k)) :=
      ⟨fun p hp => shuffleDst_src (2 ^ k) hp, fun j hj => shuffleSrc_dst (2 ^ k) hj⟩
    exact hinv.bijOn (fun p hp => shuffleSrc_lt (2 ^ k) hp)
      (fun j hj => shuffleDst_lt (2 ^ k) hj)
  · have hinv : Set.InvOn (butterflySrc (2 * 2 ^ k)) (butterflySrc (2 * 2 ^ k))
        (Set.Iio (2 * 2 ^ k)) (Set.Iio (2 * 2 ^ k)) :=
      ⟨fun p hp => butterflySrc_invol (2 ^ k) (two_pow_par k) hp,
        fun p hp => butterflySrc_invol (2 ^ k) (two_pow_par k) hp⟩
    exact hinv.bijOn (fun p hp => butterflySrc_lt (2 ^ k) hp)
      (fun p hp => butterflySrc_lt (2 ^ k) hp)

/-- Counterexample to C4 as stated: on a chunk of size `S = 8`, the element at
the odd source index `1` (key `11`) is routed by one `shuffleN` application to
destination `2`, which lies in the first half `[0, 4)`, not in the second half
`[4, 8)` as the claim requires. -/
theorem shuffle_routing_counterexample :
    [10, 11, 12, 13, 14, 15, 16, 17].getD 1 (0 : Int) = 11 ∧
    1 % 2 = 1 ∧
    gatherChunks (shuffleSrc 8) 8 [10, 11, 12, 13, 14, 15, 16, 17] =
      [10, 14, 11, 15, 12, 16, 13, 17] ∧
    (gatherChunks (shuffleSrc 8) 8 [10, 11, 12, 13, 14, 15, 16, 17]).indexOf 11 = 2 ∧
    ¬ (8 / 2 ≤ 2) := by
  decide

/-- C4 (amended): one `shuffleN` application on a size-`S` power-of-two chunk
routes the element at a source index `j` in the first half `[0, S/2)` to the
even destination `2j`, and the element at a source index `j` in the second
half `[S/2, S)` to the odd destination `2(j - S/2) + 1` — a perfect interleave
(riffle shuffle) of the two halves, the inverse of an unshuffle.
Equivalently, each even destination `p` reads source `p/2` from the first half
and each odd destination `p` reads source `S/2 + p/2` from the second half. -/
theorem shuffle_routing_amended (k : Nat) :
    (∀ j, j < 2 ^ (k + 1) / 2 →
      shuffleDst (2 ^ (k + 1)) j = 2 * j ∧ shuffleSrc (2 ^ (k + 1)) (2 * j) = j) ∧
    (∀ j, 2 ^ (k + 1) / 2 ≤ j → j < 2 ^ (k + 1) →
      shuffleDst (2 ^ (k + 1)) j = 2 * (j - 2 ^ (k + 1) / 2) + 1 ∧
        shuffleSrc (2 ^ (k + 1)) (2 * (j - 2 ^ (k + 1) / 2) + 1) = j) ∧
    (∀ p, p < 2 ^ (k + 1) → p % 2 = 0 → shuffleSrc (2 ^ (k + 1)) p < 2 ^ (k + 1) / 2) ∧
    (∀ p, p < 2 ^ (k + 1) → p % 2 = 1 →
      2 ^ (k + 1) / 2 ≤ shuffleSrc (2 ^ (k + 1)) p ∧ shuffleSrc (2 ^ (k + 1)) p < 2 ^ (k + 1)) := by
  rw [two_pow_succ_eq]
  refine ⟨?_, ?_, ?_, ?_⟩ <;>
    · intros
      simp only [shuffleSrc, shuffleDst]
      split_ifs <;> omega

/-- Witness for C4's amended theorem at `S = 8`, `j = 1` and `p = 5`. -/
theorem shuffle_routing_amended_witness :
    (1 < 2 ^ (2 + 1) / 2 ∧
      (shuffleDst (2 ^ (2 + 1)) 1 = 2 * 1 ∧ shuffleSrc (2 ^ (2 + 1)) (2 * 1) = 1)) ∧
    (5 < 2 ^ (2 + 1) ∧ 5 % 2 = 1 ∧
      (2 ^ (2 + 1) / 2 ≤ shuffleSrc (2 ^ (2 + 1)) 5 ∧
        shuffleSrc (2 ^ (2 + 1)) 5 < 2 ^ (2 + 1))) :=
  ⟨⟨by norm_num, (shuffle_routing_amended 2).1 1 (by norm_num)⟩,
    ⟨by norm_num, by norm_num,
      (shuffle_routing_amended 2).2.2.2 5 (by norm_num) (by norm_num)⟩⟩

/-- C3 fails on the code: at `N = 2` (any level) the `compareAndSwap` launch
runs comparator positions `0` and `1` — that is `N`, not `N/2 = 1`,
positions — and comparator `1` reads and writes key indices `2` and `3`,
outside `[0, 2)`.  (The `main` harness allocates exactly `N` floats for the
key array, so these accesses are past the end of the array.) -/
theorem comparator_bounds_violation :
    compareAndSwapComparators 2 = [0, 1] ∧
    (compareAndSwapComparators 2).length ≠ 2 / 2 ∧
    compareAndSwapKeyAccesses 2 = [0, 1, 2, 3] ∧
    3 ∈ compareAndSwapKeyAccesses 2 ∧
    ¬ (3 < 2) := by
  decide

/-- C8: if the requested number of items `N` is not a power of two, `main`
exits with status 1, and the iteration performs no device allocation and no
network launch. -/
theorem fail_fast_non_pow2 (N : Nat) (h : ∀ k, N ≠ 2 ^ k) :
    (mainIteration N).2 = some 1 ∧
    MainStep.allocateDeviceBuffer ∉ (mainIteration N).1 ∧
    MainStep.launchNetwork ∉ (mainIteration N).1 := by
  have hpow : IsPowerOfTwo N = false := by
    unfold IsPowerOfTwo
    simp only [decide_eq_false_iff_not]
    rintro ⟨k, -, hk⟩
    exact h k hk
  unfold mainIteration
  rw [hpow]
  refine ⟨rfl, ?_, ?_⟩ <;> simp

/-! ### The launch trace of `benyan` (C7, C9) -/

lemma benyanInner_events (n stage : Nat) :
    ∀ r t level l, (benyanInner n stage r t level l).2.2 = innerEvents n stage r t level := by
  intro r
  induction r with
  | zero => intro t level l; rfl
  | succ r ih =>
    intro t level l
    by_cases hlt : stage + 1 < n
    · by_cases ht : t = 0 <;> simp [benyanInner, innerEvents, hlt, ht, ih]
    · simp [benyanInner, innerEvents, hlt]

lemma benyanInner_level (n stage : Nat) :
    ∀ r t level l, (benyanInner n stage r t level l).1 =
      if stage + 1 < n ∧ 0 < r ∧ t = 0 then level + 1 else level := by
  intro r
  induction r with
  | zero => intro t level l; simp [benyanInner]
  | succ r ih =>
    intro t level l
    by_cases hlt : stage + 1 < n
    · by_cases ht : t = 0 <;> simp [benyanInner, hlt, ht, ih]
    · simp [benyanInner, hlt]

lemma benyanOuter_events (n : Nat) :
    ∀ r stage level l, (benyanOuter n r stage level l).2 = outerEvents n r stage level := by
  intro r
  induction r with
  | zero => intro stage level l; rfl
  | succ r ih =>
    intro stage level l
    simp only [benyanOuter, outerEvents, benyanInner_events, ih, benyanInner_level]
    simp

lemma substagesA_append (s : Nat) (a b : List Event) :
    substagesA s (a ++ b) = substagesA s a ++ substagesA s b := by
  simp [substagesA, List.filterMap_append]

lemma substagesA_nil (s : Nat) : substagesA s [] = [] := rfl

lemma substagesA_cons_compA (s st t lv : Nat) (tr : List Event) :
    substagesA s (Event.compA st t lv :: tr) =
      (if st = s then [t] else []) ++ substagesA s tr := by
  simp only [substagesA, List.filterMap_cons]
  split_ifs <;> simp

lemma substagesA_cons_shuf (s sz : Nat) (tr : List Event) :
    substagesA s (Event.shuf sz :: tr) = substagesA s tr := by
  simp only [substagesA, List.filterMap_cons]

lemma substagesA_cons_compB (s st t lv : Nat) (tr : List Event) :
    substagesA s (Event.compB st t lv :: tr) = substagesA s tr := by
  simp only [substagesA, List.filterMap_cons]

lemma substagesA_cons_bfly (s sz : Nat) (tr : List Event) :
    substagesA s (Event.bfly sz :: tr) = substagesA s tr := by
  simp only [substagesA, List.filterMap_cons]

lemma substagesA_innerEvents_other (n stage s : Nat) (hne : stage ≠ s) :
    ∀ r t level, substagesA s (innerEvents n stage r t level) = [] := by
  intro r
  induction r with
  | zero => intro t level; rfl
  | succ r ih =>
    intro t level
    rw [innerEvents]
    by_cases hlt : stage + 1 < n
    · rw [if_pos hlt]
      by_cases ht : t = 0 <;>
        simp [ht, substagesA_cons_compA, substagesA_append, substagesA_cons_shuf,
          substagesA_cons_compB, substagesA_cons_bfly, substagesA_nil, ih, hne]
    · rw [if_neg hlt]
      simp [substagesA_cons_compA, substagesA_nil, hne]

lemma substagesA_innerEvents_self (n s : Nat) (h : s + 1 < n) :
    ∀ r t level, substagesA s (innerEvents n s r t level) = List.range' t r := by
  intro r
  induction r with
  | zero => intro t level; rfl
  | succ r ih =>
    intro t level
    rw [innerEvents, if_pos h]
    by_cases ht : t = 0 <;>
      simp [ht, substagesA_cons_compA, substagesA_append, substagesA_cons_shuf,
        substagesA_cons_compB, substagesA_cons_bfly, substagesA_nil, ih,
        List.range'_succ]

lemma substagesA_innerEvents_last (n s : Nat) (h : ¬ (s + 1 < n)) :
    ∀ r t level, 0 < r → substagesA s (innerEvents n s r t level) = [t] := by
  intro r
  induction r with
  | zero => intro t level hr; omega
  | succ r _ =>
    intro t level _
    rw [innerEvents, if_neg h]
    simp [substagesA_cons_compA, substagesA_nil]

lemma substagesA_outerEvents_none (n s : Nat) :
    ∀ r st level, s < st → substagesA s (outerEvents n r st level) = [] := by
  intro r
  induction r with
  | zero => intro st level hst; rfl
  | succ r ih =>
    intro st level hst
    rw [outerEvents, substagesA_append,
      substagesA_innerEvents_other n st s (by omega), ih (st + 1) _ (by omega)]
    rfl

lemma substagesA_outerEvents (n s : Nat) (hs : s < n) :
    ∀ r st level, st ≤ s → st + r = n →
      substagesA s (outerEvents n r st level) =
        if s + 1 < n then List.range' 0 (s + 1) else [0] := by
  intro r
  induction r with
  | zero => intro st level hst hr; exfalso; omega
  | succ r ih =>
    intro st level hst hr
    rw [outerEvents, substagesA_append]
    by_cases hse : st = s
    · subst hse
      rw [substagesA_outerEvents_none n st r (st + 1) _ (by omega)]
      by_cases hlt : st + 1 < n
      · rw [substagesA_innerEvents_self n st hlt, if_pos hlt, List.append_nil]
      · rw [substagesA_innerEvents_last n st hlt (st + 1) 0 _ (by omega), if_neg hlt,
          List.append_nil]
    · rw [substagesA_innerEvents_other n st s hse, ih (st + 1) _ (by omega) (by omega)]
      rfl

/-- Counterexample to C7 as stated: at `n = 2`, the final stage `s = 1` runs
the phase-(a) `compareAndSwap` launch only for substage `0` — the substage
counter does not cover the full range `0..1` there, because the inner loop
breaks out after the first compare of the last stage. -/
theorem stage_substage_counterexample :
    1 < 2 ∧
    substagesA 1 (benyanTrace 2 [5, 7, 2, 9]) = [0] ∧
    ([0] : List Nat) ≠ List.range (1 + 1) := by
  decide

/-- C7 (amended): for every `n ≥ 1` and every stage `s` with `s + 1 < n`,
`benyan` executes the stage's phase-(a) Compare-Exchange launch once for each
substage value `0, 1, ..., s` before advancing to stage `s+1`; at the final
stage `s = n - 1` it executes the phase-(a) launch exactly once, for substage
`0`, and then breaks out of the substage loop. -/
theorem stage_substage_structure (n s : Nat) (l : List Int) (h : s < n) :
    substagesA s (benyanTrace n l) =
      if s + 1 < n then List.range (s + 1) else [0] := by
  unfold benyanTrace
  rw [benyanOuter_events, substagesA_outerEvents n s h n 0 0 (by omega) (by omega)]
  simp [List.range_eq_range']

/-- Witness for C7's amended theorem at `n = 3`, `s = 1` (a non-final stage)
and at `n = 2`, `s = 1` (a final stage). -/
theorem stage_substage_structure_witness :
    (1 < 3 ∧ substagesA 1 (benyanTrace 3 [0, 1, 2, 3, 4, 5, 6, 7]) =
      if 1 + 1 < 3 then List.range (1 + 1) else [0]) ∧
    (1 < 2 ∧ substagesA 1 (benyanTrace 2 [0, 1, 2, 3]) =
      if 1 + 1 < 2 then List.range (1 + 1) else [0]) :=
  ⟨⟨by norm_num, stage_substage_structure 3 1 [0, 1, 2, 3, 4, 5, 6, 7] (by norm_num)⟩,
    ⟨by norm_num, stage_substage_structure 2 1 [0, 1, 2, 3] (by norm_num)⟩⟩

lemma compPass_pair (a b : Int) : compPass 0 [a, b] = [min a b, max a b] := by
  have h1 : compPass 0 [a, b] =
      [(cmpSwapPair false (a, b)).1, (cmpSwapPair false (a, b)).2] := by
    simp [compPass, List.range_succ]
    norm_num [compBool]
  rw [h1, cmpSwapPair_false]

/-- C9: with `N = 1` (`n = 0`) `benyan` performs no kernel launches and leaves
the single-element array unchanged; with `N = 2` (`n = 1`) it performs exactly
one compare-exchange launch and no shuffle or butterfly launch, leaving the two
keys in ascending order. -/
theorem boundary_sizes (a b : Int) :
    benyanRun 0 [a] = [a] ∧
    benyanTrace 0 [a] = [] ∧
    benyanRun 1 [a, b] = [min a b, max a b] ∧
    benyanTrace 1 [a, b] = [Event.compA 0 0 0] := by
  refine ⟨rfl, rfl, ?_, rfl⟩
  show compPass 0 [a, b] = [min a b, max a b]
  exact compPass_pair a b

/-- Witness for C8 at `N = 3`. -/
theorem fail_fast_non_pow2_witness :
    (∀ k, (3 : Nat) ≠ 2 ^ k) ∧
    ((mainIteration 3).2 = some 1 ∧
      MainStep.allocateDeviceBuffer ∉ (mainIteration 3).1 ∧
      MainStep.launchNetwork ∉ (mainIteration 3).1) := by
  have h3 : ∀ k, (3 : Nat) ≠ 2 ^ k := by
    intro k
    match k with
    | 0 => decide
    | 1 => decide
    | k + 2 =>
      have : 2 ^ 2 ≤ 2 ^ (k + 2) := Nat.pow_le_pow_right (by norm_num) (by omega)
      omega
  exact ⟨h3, fail_fast_non_pow2 3 h3⟩


/-! ### Toolkit for the C1 development -/

lemma getD_mapRange (f : Nat → Int) {L i : Nat} (h : i < L) :
    ((List.range L).map f).getD i 0 = f i := by
  rw [List.getD_eq_getElem _ _ (by simpa using h)]
  simp

lemma getD_map_in (g : Int → Int) (l : List Int) {i : Nat} (h : i < l.length) :
    (l.map g).getD i 0 = g (l.getD i 0) := by
  rw [List.getD_eq_getElem _ _ (by simpa using h), List.getD_eq_getElem _ _ h]
  simp

lemma length_pairsComp (d : Bool) (l : List Int) : (pairsComp d l).length = l.length := by
  simp [pairsComp]

lemma length_gatherChunks (src : Nat → Nat) (C : Nat) (l : List Int) :
    (gatherChunks src C l).length = l.length := by
  simp [gatherChunks]

lemma length_distComp (d : Bool) (l : List Int) : (distComp d l).length = l.length := by
  simp [distComp]

lemma length_compPass (lvl : Nat) (l : List Int) : (compPass lvl l).length = l.length := by
  simp [compPass]

lemma length_mergeLoop (d : Bool) : ∀ r C (x : List Int), (mergeLoop d r C x).length = x.length := by
  intro r
  induction r with
  | zero => intro C x; rfl
  | succ r ih =>
    intro C x
    rw [mergeLoop, ih, length_gatherChunks, length_pairsComp, length_pairsComp]

lemma length_mergeSeq (s : Nat) (d : Bool) (x : List Int) :
    (mergeSeq s d x).length = x.length := by
  rw [mergeSeq, length_pairsComp, length_mergeLoop, length_gatherChunks,
    length_pairsComp, length_gatherChunks]

lemma length_stageLoop (lvl : Nat) : ∀ r C (x : List Int), (stageLoop lvl r C x).length = x.length := by
  intro r
  induction r with
  | zero => intro C x; rfl
  | succ r ih =>
    intro C x
    rw [stageLoop, ih, length_gatherChunks, length_compPass, length_compPass]

lemma length_fullStage (s : Nat) (l : List Int) : (fullStage s l).length = l.length := by
  rw [fullStage, length_stageLoop, length_gatherChunks, length_compPass,
    length_gatherChunks, length_compPass]

lemma length_stagesFrom : ∀ r st (x : List Int), (stagesFrom st r x).length = x.length := by
  intro r
  induction r using Nat.strong_induction_on with
  | _ r ih =>
    intro st x
    match r with
    | 0 => rfl
    | 1 => rfl
    | r + 2 => rw [stagesFrom, ih (r + 1) (by omega), length_fullStage]

lemma pairsComp_getD (d : Bool) (l : List Int) {i : Nat} (h : i < l.length) :
    (pairsComp d l).getD i 0 =
      if i % 2 = 0
        then (cmpSwapPair d (l.getD (2 * (i / 2)) 0, l.getD (2 * (i / 2) + 1) 0)).1
        else (cmpSwapPair d (l.getD (2 * (i / 2)) 0, l.getD (2 * (i / 2) + 1) 0)).2 := by
  rw [pairsComp, getD_mapRange _ h]

lemma gatherChunks_getD (src : Nat → Nat) (C : Nat) (l : List Int) {i : Nat}
    (h : i < l.length) :
    (gatherChunks src C l).getD i 0 = l.getD ((i / C) * C + src (i % C)) 0 := by
  rw [gatherChunks, getD_mapRange _ h]

lemma distComp_getD (d : Bool) (l : List Int) {i : Nat} (h : i < l.length) :
    (distComp d l).getD i 0 =
      if i < l.length / 2
        then (cmpSwapPair d (l.getD i 0, l.getD (i + l.length / 2) 0)).1
        else (cmpSwapPair d (l.getD (i - l.length / 2) 0, l.getD i 0)).2 := by
  rw [distComp, getD_mapRange _ h]

lemma compPass_getD (lvl : Nat) (l : List Int) {i : Nat} (h : i < l.length) :
    (compPass lvl l).getD i 0 =
      if i % 2 = 0
        then (cmpSwapPair (compBool lvl (i / 2)) (l.getD (2 * (i / 2)) 0, l.getD (2 * (i / 2) + 1) 0)).1
        else (cmpSwapPair (compBool lvl (i / 2)) (l.getD (2 * (i / 2)) 0, l.getD (2 * (i / 2) + 1) 0)).2 := by
  rw [compPass, getD_mapRange _ h]

lemma getD_ext {l₁ l₂ : List Int} (hlen : l₁.length = l₂.length)
    (h : ∀ i < l₁.length, l₁.getD i 0 = l₂.getD i 0) : l₁ = l₂ := by
  apply List.ext_getElem hlen
  intro i h1 h2
  have := h i h1
  rwa [List.getD_eq_getElem _ _ h1, List.getD_eq_getElem _ _ h2] at this

lemma length_chunk {J C : Nat} {x : List Int} (h : (J + 1) * C ≤ x.length) :
    (chunk J C x).length = C := by
  have h' : J * C + C ≤ x.length := by
    have e : (J + 1) * C = J * C + C := by ring
    omega
  simp only [chunk, List.length_take, List.length_drop]
  omega

lemma chunk_getD {J C : Nat} {x : List Int} {i : Nat} (hi : i < C)
    (h : (J + 1) * C ≤ x.length) :
    (chunk J C x).getD i 0 = x.getD (J * C + i) 0 := by
  have hlen : i < (chunk J C x).length := by rw [length_chunk h]; exact hi
  have hx : J * C + i < x.length := by
    have : (J + 1) * C = J * C + C := by ring
    omega
  rw [List.getD_eq_getElem _ _ hlen, List.getD_eq_getElem _ _ hx]
  simp only [chunk, List.getElem_take, List.getElem_drop]


/-! ### `benyanRun` decomposes into merge stages -/

lemma benyanInner_data_final (n s : Nat) (h : ¬ (s + 1 < n)) (r t lvl : Nat)
    (l : List Int) (hr : 0 < r) :
    (benyanInner n s r t lvl l).2.1 = compPass lvl l := by
  match r with
  | r + 1 => simp [benyanInner, h]

lemma benyanInner_data_loop (n s lvl : Nat) (h : s + 1 < n) :
    ∀ r t, 0 < t → t + r = s + 1 → ∀ l,
      (benyanInner n s r t lvl l).2.1 = stageLoop lvl r (2 ^ (r + 1)) l := by
  intro r
  induction r with
  | zero => intro t ht hts l; rfl
  | succ r ih =>
    intro t ht hts l
    have ht0 : ¬ (t = 0) := by omega
    have hsz : 2 + s - t = r + 2 := by omega
    have hpow : (2 : Nat) ^ (r + 2) / 2 = 2 ^ (r + 1) := by
      rw [pow_succ]
      exact Nat.mul_div_cancel _ (by norm_num)
    simp only [benyanInner, if_pos h, ht0, if_false, ite_false, hsz]
    rw [ih (t + 1) (by omega) (by omega)]
    rw [stageLoop, hpow]

lemma benyanInner_data_first (n s : Nat) (h : s + 1 < n) (l : List Int) :
    (benyanInner n s (s + 1) 0 s l).2.1 = fullStage s l := by
  have hsz : 2 + s - 0 = s + 2 := by omega
  simp only [benyanInner, if_pos h, ite_true, hsz]
  rw [benyanInner_data_loop n s (s + 1) h s 1 (by omega) (by omega)]
  rfl

lemma benyanOuter_step (n r stage level : Nat) (l : List Int) :
    (benyanOuter n (r + 1) stage level l).1 =
      (benyanOuter n r (stage + 1) ((benyanInner n stage (stage + 1) 0 level l).1)
        ((benyanInner n stage (stage + 1) 0 level l).2.1)).1 := rfl

lemma benyanOuter_data (n : Nat) : ∀ r st (l : List Int), st + r = n → 0 < r →
    (benyanOuter n r st st l).1 = compPass (n - 1) (stagesFrom st r l) := by
  intro r
  induction r using Nat.strong_induction_on with
  | _ r ih =>
    intro st l hr h0
    match r with
    | 1 =>
      have hst : ¬ (st + 1 < n) := by omega
      have hlev : (benyanInner n st (st + 1) 0 st l).1 = st := by
        rw [benyanInner_level]
        simp [hst]
      have hdata := benyanInner_data_final n st hst (st + 1) 0 st l (by omega)
      have hst' : st = n - 1 := by omega
      rw [benyanOuter_step, hdata]
      show compPass st l = _
      rw [hst']
      rfl
    | r + 2 =>
      have hst : st + 1 < n := by omega
      have hlev : (benyanInner n st (st + 1) 0 st l).1 = st + 1 := by
        rw [benyanInner_level]
        simp [hst]
      have hdata := benyanInner_data_first n st hst l
      rw [benyanOuter_step, hlev, hdata]
      rw [ih (r + 1) (by omega) (st + 1) (fullStage st l) (by omega) (by omega)]
      rfl

lemma benyanRun_decompose (n : Nat) (hn : 0 < n) (l : List Int) :
    benyanRun n l = compPass (n - 1) (stagesFrom 0 n l) :=
  benyanOuter_data n n 0 l (by omega) hn


/-! ### Distribution over concatenation, idempotence -/

lemma pairsComp_append (d : Bool) (u v : List Int) (h : 2 ∣ u.length) :
    pairsComp d (u ++ v) = pairsComp d u ++ pairsComp d v := by
  obtain ⟨q, hq⟩ := h
  apply getD_ext
  · simp [length_pairsComp]
  · intro i hi
    rw [length_pairsComp, List.length_append] at hi
    rw [pairsComp_getD _ _ (by rw [List.length_append]; omega)]
    by_cases hlt : i < u.length
    · rw [List.getD_append (pairsComp d u) (pairsComp d v) 0 i
          (by rw [length_pairsComp]; omega),
        pairsComp_getD _ _ hlt,
        List.getD_append u v 0 (2 * (i / 2)) (by omega),
        List.getD_append u v 0 (2 * (i / 2) + 1) (by omega)]
    · push_neg at hlt
      rw [List.getD_append_right (pairsComp d u) (pairsComp d v) 0 i
          (by rw [length_pairsComp]; omega),
        length_pairsComp,
        pairsComp_getD _ _ (show i - u.length < v.length by omega)]
      have epar : i % 2 = (i - u.length) % 2 := by omega
      rw [List.getD_append_right u v 0 (2 * (i / 2)) (by omega),
        List.getD_append_right u v 0 (2 * (i / 2) + 1) (by omega), epar,
        (show 2 * (i / 2) - u.length = 2 * ((i - u.length) / 2) by omega),
        (show 2 * (i / 2) + 1 - u.length = 2 * ((i - u.length) / 2) + 1 by omega)]

lemma gatherChunks_append (src : Nat → Nat) (C : Nat) (hC : 0 < C)
    (hsrc : ∀ p < C, src p < C) (u v : List Int) (h : C ∣ u.length) :
    gatherChunks src C (u ++ v) = gatherChunks src C u ++ gatherChunks src C v := by
  obtain ⟨q, hq⟩ := h
  apply getD_ext
  · simp [length_gatherChunks]
  · intro i hi
    rw [length_gatherChunks, List.length_append] at hi
    rw [gatherChunks_getD _ _ _ (by rw [List.length_append]; omega)]
    have hsp : src (i % C) < C := hsrc _ (Nat.mod_lt _ hC)
    by_cases hlt : i < u.length
    · have hdiv : i / C < q := by
        rw [Nat.div_lt_iff_lt_mul hC, Nat.mul_comm]
        omega
      have hread : (i / C) * C + src (i % C) < u.length := by
        have h1 : (i / C) * C + C ≤ q * C := by
          have h3 : i / C + 1 ≤ q := hdiv
          calc (i / C) * C + C = (i / C + 1) * C := by ring
            _ ≤ q * C := Nat.mul_le_mul_right C h3
        have h2 : q * C = u.length := by rw [hq]; ring
        omega
      rw [List.getD_append (gatherChunks src C u) (gatherChunks src C v) 0 i
          (by rw [length_gatherChunks]; omega),
        gatherChunks_getD _ _ _ hlt,
        List.getD_append u v 0 _ hread]
    · push_neg at hlt
      have hij : i = (i - u.length) + C * q := by omega
      have hdivj : i / C = (i - u.length) / C + q := by
        conv_lhs => rw [hij]
        exact Nat.add_mul_div_left _ q hC
      have hmodj : i % C = (i - u.length) % C := by
        conv_lhs => rw [hij]
        exact Nat.add_mul_mod_self_left _ C q
      have eidx : (i / C) * C + src (i % C) =
          u.length + (((i - u.length) / C) * C + src ((i - u.length) % C)) := by
        rw [hdivj, hmodj, hq]
        ring
      rw [List.getD_append_right (gatherChunks src C u) (gatherChunks src C v) 0 i
          (by rw [length_gatherChunks]; omega),
        length_gatherChunks,
        gatherChunks_getD _ _ _ (show i - u.length < v.length by omega),
        eidx,
        List.getD_append_right u v 0 _ (by omega)]
      simp only [Nat.add_sub_cancel_left]

lemma butterflySrc_bound (c : Nat) : ∀ p < 2 ^ (c + 1), butterflySrc (2 ^ (c + 1)) p < 2 ^ (c + 1) := by
  intro p hp
  have e : (2 : Nat) ^ (c + 1) = 2 * 2 ^ c := two_pow_succ_eq c
  rw [e] at hp ⊢
  exact butterflySrc_lt (2 ^ c) hp

lemma shuffleSrc_bound (c : Nat) : ∀ p < 2 ^ (c + 1), shuffleSrc (2 ^ (c + 1)) p < 2 ^ (c + 1) := by
  intro p hp
  have e : (2 : Nat) ^ (c + 1) = 2 * 2 ^ c := two_pow_succ_eq c
  rw [e] at hp ⊢
  exact shuffleSrc_lt (2 ^ c) hp

lemma pow_succ_div_two (c : Nat) : (2 : Nat) ^ (c + 1) / 2 = 2 ^ c := by
  rw [pow_succ]
  exact Nat.mul_div_cancel _ (by norm_num)

lemma mergeLoop_append (d : Bool) :
    ∀ r c (u v : List Int), r ≤ c → (2 ^ (c + 1)) ∣ u.length →
      mergeLoop d r (2 ^ (c + 1)) (u ++ v) =
        mergeLoop d r (2 ^ (c + 1)) u ++ mergeLoop d r (2 ^ (c + 1)) v := by
  intro r
  induction r with
  | zero => intro c u v _ _; rfl
  | succ r ih =>
    intro c u v hrc hdvd
    match c, hrc with
    | c + 1, hrc =>
      have h2 : 2 ∣ u.length := dvd_trans ⟨2 ^ (c + 1), by rw [pow_succ]; ring⟩ hdvd
      have h2' : 2 ∣ (pairsComp d u).length := by rw [length_pairsComp]; exact h2
      have hd2 : (2 : Nat) ^ (c + 2) ∣ (pairsComp d (pairsComp d u)).length := by
        rw [length_pairsComp, length_pairsComp]; exact hdvd
      have hd1 : (2 : Nat) ^ (c + 1) ∣
          (gatherChunks (butterflySrc (2 ^ (c + 2))) (2 ^ (c + 2))
            (pairsComp d (pairsComp d u))).length := by
        rw [length_gatherChunks, length_pairsComp, length_pairsComp]
        exact dvd_trans (pow_dvd_pow 2 (by omega)) hdvd
      rw [mergeLoop, mergeLoop, mergeLoop,
        pairsComp_append d u v h2,
        pairsComp_append d _ _ h2',
        gatherChunks_append _ _ (Nat.pos_pow_of_pos _ (by norm_num))
          (butterflySrc_bound (c + 1)) _ _ hd2,
        pow_succ_div_two,
        ih c _ _ (by omega) hd1]

lemma cmpSwapPair_idem (d : Bool) (a b : Int) :
    cmpSwapPair d ((cmpSwapPair d (a, b)).1, (cmpSwapPair d (a, b)).2) =
      cmpSwapPair d (a, b) := by
  rcases d
  · simp only [cmpSwapPair_false, Prod.mk.injEq]
    constructor <;> omega
  · simp only [cmpSwapPair_true, Prod.mk.injEq]
    constructor <;> omega

lemma pairsComp_idem (d : Bool) (x : List Int) (h : 2 ∣ x.length) :
    pairsComp d (pairsComp d x) = pairsComp d x := by
  apply getD_ext
  · simp [length_pairsComp]
  · intro i hi
    rw [length_pairsComp, length_pairsComp] at hi
    rw [pairsComp_getD _ _ (by rw [length_pairsComp]; exact hi), pairsComp_getD _ _ hi]
    have h0 : 2 * (i / 2) < x.length := by omega
    have h1 : 2 * (i / 2) + 1 < x.length := by omega
    rw [pairsComp_getD _ _ h0, pairsComp_getD _ _ h1,
      if_pos (show (2 * (i / 2)) % 2 = 0 by omega),
      if_neg (show ¬ ((2 * (i / 2) + 1) % 2 = 0) by omega),
      (show (2 * (i / 2)) / 2 = i / 2 by omega),
      (show (2 * (i / 2) + 1) / 2 = i / 2 by omega),
      cmpSwapPair_idem]


/-! ### The banyan wiring realises the distance compare-exchange -/

/-- `shuffleN ; compareAndSwap ; butterflyN` on one chunk of size `4u` is the
distance-`2u` compare-exchange followed by a `shuffleN` of each half. -/
lemma shuffle_comp_butterfly (u : Nat) (hu : 0 < u) (d : Bool) (x : List Int)
    (hx : x.length = 4 * u) :
    gatherChunks (butterflySrc (4 * u)) (4 * u)
        (pairsComp d (gatherChunks (shuffleSrc (4 * u)) (4 * u) x)) =
      gatherChunks (shuffleSrc (2 * u)) (2 * u) (distComp d x) := by
  have h42 : 4 * u / 2 = 2 * u := by omega
  have h22 : 2 * u / 2 = u := by omega
  apply getD_ext
  · simp [length_gatherChunks, length_pairsComp, length_distComp]
  · intro i hi
    rw [length_gatherChunks, length_pairsComp, length_gatherChunks, hx] at hi
    have hj : butterflySrc (4 * u) i < 4 * u := by
      have e : (4 : Nat) * u = 2 * (2 * u) := by ring
      rw [e]
      exact butterflySrc_lt (2 * u) (by omega)
    -- left-hand side
    rw [gatherChunks_getD _ _ _
        (by rw [length_pairsComp, length_gatherChunks, hx]; exact hi),
      Nat.div_eq_of_lt hi, Nat.mod_eq_of_lt hi]
    simp only [Nat.zero_mul, Nat.zero_add]
    rw [pairsComp_getD _ _ (by rw [length_gatherChunks, hx]; exact hj)]
    rw [gatherChunks_getD _ _ _ (show 2 * (butterflySrc (4 * u) i / 2) < x.length by
        rw [hx]; omega),
      gatherChunks_getD _ _ _ (show 2 * (butterflySrc (4 * u) i / 2) + 1 < x.length by
        rw [hx]; omega)]
    rw [Nat.div_eq_of_lt (show 2 * (butterflySrc (4 * u) i / 2) < 4 * u by omega),
      Nat.mod_eq_of_lt (show 2 * (butterflySrc (4 * u) i / 2) < 4 * u by omega),
      Nat.div_eq_of_lt (show 2 * (butterflySrc (4 * u) i / 2) + 1 < 4 * u by omega),
      Nat.mod_eq_of_lt (show 2 * (butterflySrc (4 * u) i / 2) + 1 < 4 * u by omega)]
    simp only [Nat.zero_mul, Nat.zero_add]
    rw [show shuffleSrc (4 * u) (2 * (butterflySrc (4 * u) i / 2)) =
          butterflySrc (4 * u) i / 2 by
        simp only [shuffleSrc]
        rw [if_pos (by omega)]
        omega,
      show shuffleSrc (4 * u) (2 * (butterflySrc (4 * u) i / 2) + 1) =
          2 * u + butterflySrc (4 * u) i / 2 by
        simp only [shuffleSrc, h42]
        rw [if_neg (by omega)]
        omega]
    -- right-hand side
    rw [gatherChunks_getD _ _ _ (by rw [length_distComp, hx]; exact hi)]
    have hsm : shuffleSrc (2 * u) (i % (2 * u)) < 2 * u :=
      shuffleSrc_lt u (Nat.mod_lt _ (by omega))
    have hd2 : i / (2 * u) < 2 := by
      rw [Nat.div_lt_iff_lt_mul (by omega)]
      omega
    have hdm : (i / (2 * u)) * (2 * u) ≤ 1 * (2 * u) :=
      Nat.mul_le_mul_right _ (by omega)
    rw [distComp_getD _ _ (by rw [hx]; omega)]
    rw [hx, h42]
    by_cases hilt : i < 2 * u
    · rw [Nat.div_eq_of_lt hilt, Nat.mod_eq_of_lt hilt]
      simp only [Nat.zero_mul, Nat.zero_add]
      by_cases hio : i % 2 = 0
      · rw [show butterflySrc (4 * u) i = i by
            simp only [butterflySrc, h42]
            rw [if_pos (by omega), if_pos hio],
          show shuffleSrc (2 * u) i = i / 2 by
            simp only [shuffleSrc]
            rw [if_pos hio]]
        rw [if_pos hio,
          if_pos (show i / 2 < 2 * u by omega),
          show 2 * u + i / 2 = i / 2 + 2 * u by omega]
      · rw [show butterflySrc (4 * u) i = i + (2 * u - 1) by
            simp only [butterflySrc, h42]
            rw [if_pos (by omega), if_neg hio],
          show shuffleSrc (2 * u) i = u + i / 2 by
            simp only [shuffleSrc, h22]
            rw [if_neg hio]]
        rw [if_pos (show (i + (2 * u - 1)) % 2 = 0 by omega),
          if_pos (show u + i / 2 < 2 * u by omega),
          show (i + (2 * u - 1)) / 2 = u + i / 2 by omega,
          show 2 * u + (u + i / 2) = u + i / 2 + 2 * u by omega]
    · push_neg at hilt
      rw [Nat.div_eq_of_lt_le (by omega) (show i < (1 + 1) * (2 * u) by omega),
        Nat.mod_eq_sub_mod hilt,
        Nat.mod_eq_of_lt (show i - 2 * u < 2 * u by omega)]
      simp only [Nat.one_mul]
      by_cases hio : i % 2 = 0
      · rw [show butterflySrc (4 * u) i = i - (2 * u - 1) by
            simp only [butterflySrc, h42]
            rw [if_neg (by omega), if_pos hio],
          show shuffleSrc (2 * u) (i - 2 * u) = (i - 2 * u) / 2 by
            simp only [shuffleSrc]
            rw [if_pos (by omega)]]
        rw [if_neg (show ¬ ((i - (2 * u - 1)) % 2 = 0) by omega),
          if_neg (show ¬ (2 * u + (i - 2 * u) / 2 < 2 * u) by omega),
          show (i - (2 * u - 1)) / 2 = 2 * u + (i - 2 * u) / 2 - 2 * u by omega,
          show 2 * u + (2 * u + (i - 2 * u) / 2 - 2 * u) = 2 * u + (i - 2 * u) / 2 by omega]
      · rw [show butterflySrc (4 * u) i = i by
            simp only [butterflySrc, h42]
            rw [if_neg (by omega), if_neg hio],
          show shuffleSrc (2 * u) (i - 2 * u) = u + (i - 2 * u) / 2 by
            simp only [shuffleSrc, h22]
            rw [if_neg (by omega)]]
        rw [if_neg (show ¬ (i % 2 = 0) from hio),
          if_neg (show ¬ (2 * u + (u + (i - 2 * u) / 2) < 2 * u) by omega),
          show i / 2 = 2 * u + (u + (i - 2 * u) / 2) - 2 * u by omega,
          show 2 * u + (2 * u + (u + (i - 2 * u) / 2) - 2 * u) =
            2 * u + (u + (i - 2 * u) / 2) by omega]


lemma mergeSeq_rec (s : Nat) (d : Bool) (x : List Int) (hx : x.length = 2 ^ (s + 3)) :
    mergeSeq (s + 1) d x =
      mergeSeq s d ((distComp d x).take (2 ^ (s + 2))) ++
        mergeSeq s d ((distComp d x).drop (2 ^ (s + 2))) := by
  have e43 : (2 : Nat) ^ (s + 3) = 4 * 2 ^ (s + 1) := by
    rw [pow_succ, pow_succ]
    ring
  have e22 : (2 : Nat) ^ (s + 2) = 2 * 2 ^ (s + 1) := by
    rw [pow_succ]
    ring
  have e32 : (2 : Nat) ^ (s + 3) = 2 * 2 ^ (s + 2) := by
    rw [pow_succ]
    ring
  have ediv : (2 : Nat) ^ (s + 2) / 2 = 2 ^ (s + 1) := by
    rw [pow_succ]
    exact Nat.mul_div_cancel _ (by norm_num)
  set y := distComp d x with hydef
  have hy : y.length = 2 ^ (s + 3) := by rw [hydef, length_distComp, hx]
  have hlen1 : (y.take (2 ^ (s + 2))).length = 2 ^ (s + 2) := by
    rw [List.length_take, hy]
    omega
  have ID := shuffle_comp_butterfly (2 ^ (s + 1)) (Nat.pos_pow_of_pos _ (by norm_num)) d x
    (by rw [hx]; exact e43)
  rw [← e43, ← e22, ← hydef] at ID
  calc mergeSeq (s + 1) d x
      = pairsComp d (mergeLoop d (s + 1) (2 ^ (s + 2))
          (gatherChunks (butterflySrc (2 ^ (s + 3))) (2 ^ (s + 3)) (pairsComp d
            (gatherChunks (shuffleSrc (2 ^ (s + 3))) (2 ^ (s + 3)) x)))) := rfl
    _ = pairsComp d (mergeLoop d (s + 1) (2 ^ (s + 2))
          (gatherChunks (shuffleSrc (2 ^ (s + 2))) (2 ^ (s + 2)) y)) := by rw [ID]
    _ = pairsComp d (mergeLoop d s (2 ^ (s + 1))
          (gatherChunks (butterflySrc (2 ^ (s + 2))) (2 ^ (s + 2)) (pairsComp d
            (gatherChunks (shuffleSrc (2 ^ (s + 2))) (2 ^ (s + 2)) y)))) := by
        rw [mergeLoop, ediv,
          pairsComp_idem d _ (by rw [length_gatherChunks, hy, e32]; exact ⟨2 ^ (s + 2), rfl⟩)]
    _ = mergeSeq s d (y.take (2 ^ (s + 2))) ++ mergeSeq s d (y.drop (2 ^ (s + 2))) := by
        conv_lhs => rw [← List.take_append_drop (2 ^ (s + 2)) y]
        rw [gatherChunks_append (shuffleSrc (2 ^ (s + 2))) (2 ^ (s + 2))
            (Nat.pos_pow_of_pos _ (by norm_num)) (shuffleSrc_bound (s + 1)) _ _
            (by rw [hlen1]),
          pairsComp_append d _ _
            (by rw [length_gatherChunks, hlen1, e22]; exact ⟨2 ^ (s + 1), rfl⟩),
          gatherChunks_append (butterflySrc (2 ^ (s + 2))) (2 ^ (s + 2))
            (Nat.pos_pow_of_pos _ (by norm_num)) (butterflySrc_bound (s + 1)) _ _
            (by rw [length_pairsComp, length_gatherChunks, hlen1]),
          mergeLoop_append d s s _ _ (le_refl s)
            (by rw [length_gatherChunks, length_pairsComp, length_gatherChunks, hlen1]
                exact ⟨2, by rw [e22]; ring⟩),
          pairsComp_append d _ _
            (by rw [length_mergeLoop, length_gatherChunks, length_pairsComp,
                  length_gatherChunks, hlen1, e22]
                exact ⟨2 ^ (s + 1), rfl⟩)]
        rfl


/-! ### Chunk localisation: each merge stage acts independently on its chunks -/

lemma compBool_chunk (lvl J e : Nat) (he : e < 2 ^ lvl) :
    compBool lvl (J * 2 ^ lvl + e) = decide (J % 2 = 1) := by
  unfold compBool
  rw [Nat.shiftLeft_eq, one_mul, Nat.and_two_pow, Nat.testBit_to_div_mod]
  have hdiv : (J * 2 ^ lvl + e) / 2 ^ lvl = J := by
    rw [Nat.mul_comm J, Nat.mul_add_div (Nat.pos_pow_of_pos _ (by norm_num)),
      Nat.div_eq_of_lt he, Nat.add_zero]
  rw [hdiv]
  have h2p : 2 ^ lvl ≠ 0 := (Nat.pos_pow_of_pos lvl (show 0 < 2 by norm_num)).ne'
  by_cases hJ2 : J % 2 = 1 <;> simp [hJ2, h2p]

lemma chunk_gatherChunks (src : Nat → Nat) {C' C : Nat} (J : Nat) (hC' : 0 < C')
    (hdvd : C' ∣ C) (hsrc : ∀ p < C', src p < C') (x : List Int)
    (hJ : (J + 1) * C ≤ x.length) :
    chunk J C (gatherChunks src C' x) = gatherChunks src C' (chunk J C x) := by
  obtain ⟨q, hq⟩ := hdvd
  have hJ' : (J + 1) * C ≤ (gatherChunks src C' x).length := by
    rw [length_gatherChunks]; exact hJ
  have hJC : J * C + C ≤ x.length := by
    have e : (J + 1) * C = J * C + C := by ring
    omega
  apply getD_ext
  · rw [length_chunk hJ', length_gatherChunks, length_chunk hJ]
  · intro i hi
    rw [length_chunk hJ'] at hi
    rw [chunk_getD hi hJ', gatherChunks_getD _ _ _ (by omega)]
    have hiq : i / C' < q := by
      rw [Nat.div_lt_iff_lt_mul hC', Nat.mul_comm]
      omega
    have hloc : (i / C') * C' + src (i % C') < C := by
      have h1 : src (i % C') < C' := hsrc _ (Nat.mod_lt _ hC')
      have h2 : (i / C') * C' + C' ≤ q * C' := by
        calc (i / C') * C' + C' = (i / C' + 1) * C' := by ring
          _ ≤ q * C' := Nat.mul_le_mul_right _ hiq
      have h3 : q * C' = C := by rw [hq]; ring
      omega
    have hdm : (J * C + i) / C' = i / C' + J * q := by
      conv_lhs => rw [hq, (show J * (C' * q) + i = i + C' * (J * q) by ring)]
      exact Nat.add_mul_div_left _ _ hC'
    have hmm : (J * C + i) % C' = i % C' := by
      conv_lhs => rw [hq, (show J * (C' * q) + i = i + C' * (J * q) by ring)]
      exact Nat.add_mul_mod_self_left _ _ _
    have hidx : ((J * C + i) / C') * C' + src ((J * C + i) % C') =
        J * C + ((i / C') * C' + src (i % C')) := by
      rw [hdm, hmm, hq]
      ring
    rw [hidx, ← chunk_getD hloc hJ,
      gatherChunks_getD _ _ _ (by rw [length_chunk hJ]; exact hi)]

lemma chunk_compPass (lvl J : Nat) (x : List Int)
    (hJ : (J + 1) * 2 ^ (lvl + 1) ≤ x.length) :
    chunk J (2 ^ (lvl + 1)) (compPass lvl x) =
      pairsComp (decide (J % 2 = 1)) (chunk J (2 ^ (lvl + 1)) x) := by
  have hJ' : (J + 1) * 2 ^ (lvl + 1) ≤ (compPass lvl x).length := by
    rw [length_compPass]; exact hJ
  have e2 : (2 : Nat) ^ (lvl + 1) = 2 * 2 ^ lvl := two_pow_succ_eq lvl
  have hJC : J * 2 ^ (lvl + 1) + 2 ^ (lvl + 1) ≤ x.length := by
    have e : (J + 1) * 2 ^ (lvl + 1) = J * 2 ^ (lvl + 1) + 2 ^ (lvl + 1) := by ring
    omega
  apply getD_ext
  · rw [length_chunk hJ', length_pairsComp, length_chunk hJ]
  · intro i hi
    rw [length_chunk hJ'] at hi
    rw [chunk_getD hi hJ', compPass_getD _ _ (by omega),
      pairsComp_getD _ _ (by rw [length_chunk hJ]; exact hi)]
    have hmul : J * 2 ^ (lvl + 1) = 2 * (J * 2 ^ lvl) := by rw [e2]; ring
    have hc : (J * 2 ^ (lvl + 1) + i) / 2 = J * 2 ^ lvl + i / 2 := by omega
    have hpar : (J * 2 ^ (lvl + 1) + i) % 2 = i % 2 := by omega
    have hi2 : i / 2 < 2 ^ lvl := by omega
    have hb : compBool lvl ((J * 2 ^ (lvl + 1) + i) / 2) = decide (J % 2 = 1) := by
      rw [hc]
      exact compBool_chunk lvl J (i / 2) hi2
    have hr0 : 2 * ((J * 2 ^ (lvl + 1) + i) / 2) =
        J * 2 ^ (lvl + 1) + 2 * (i / 2) := by omega
    rw [hb, hpar, hr0,
      (show J * 2 ^ (lvl + 1) + 2 * (i / 2) + 1 =
        J * 2 ^ (lvl + 1) + (2 * (i / 2) + 1) by omega),
      ← chunk_getD (show 2 * (i / 2) < 2 ^ (lvl + 1) by omega) hJ,
      ← chunk_getD (show 2 * (i / 2) + 1 < 2 ^ (lvl + 1) by omega) hJ]

lemma chunk_stageLoop (lvl J : Nat) :
    ∀ r c (x : List Int), r ≤ c → c < lvl + 1 → (J + 1) * 2 ^ (lvl + 1) ≤ x.length →
      chunk J (2 ^ (lvl + 1)) (stageLoop lvl r (2 ^ (c + 1)) x) =
        mergeLoop (decide (J % 2 = 1)) r (2 ^ (c + 1)) (chunk J (2 ^ (lvl + 1)) x) := by
  intro r
  induction r with
  | zero => intro c x _ _ _; rfl
  | succ r ih =>
    intro c x hrc hcl hJ
    match c, hrc with
    | c + 1, hrc =>
      have hlen1 : (J + 1) * 2 ^ (lvl + 1) ≤ (compPass lvl x).length := by
        rw [length_compPass]; exact hJ
      have hlen2 : (J + 1) * 2 ^ (lvl + 1) ≤ (compPass lvl (compPass lvl x)).length := by
        rw [length_compPass, length_compPass]; exact hJ
      have hlen3 : (J + 1) * 2 ^ (lvl + 1) ≤
          (gatherChunks (butterflySrc (2 ^ (c + 2))) (2 ^ (c + 2))
            (compPass lvl (compPass lvl x))).length := by
        rw [length_gatherChunks, length_compPass, length_compPass]; exact hJ
      rw [stageLoop, mergeLoop, pow_succ_div_two,
        ih c _ (by omega) (by omega) hlen3,
        chunk_gatherChunks (butterflySrc (2 ^ (c + 2))) J
          (Nat.pos_pow_of_pos _ (by norm_num)) (pow_dvd_pow 2 (by omega))
          (butterflySrc_bound (c + 1)) _ hlen2,
        chunk_compPass lvl J _ hlen1, chunk_compPass lvl J x hJ]

lemma chunk_stage (s J : Nat) (y : List Int) (hJ : (J + 1) * 2 ^ (s + 2) ≤ y.length) :
    chunk J (2 ^ (s + 2)) (compPass (s + 1) (stageLoop (s + 1) s (2 ^ (s + 1))
        (gatherChunks (butterflySrc (2 ^ (s + 2))) (2 ^ (s + 2)) (compPass (s + 1)
          (gatherChunks (shuffleSrc (2 ^ (s + 2))) (2 ^ (s + 2)) y))))) =
      mergeSeq s (decide (J % 2 = 1)) (chunk J (2 ^ (s + 2)) y) := by
  have l1 : (J + 1) * 2 ^ (s + 2) ≤
      (gatherChunks (shuffleSrc (2 ^ (s + 2))) (2 ^ (s + 2)) y).length := by
    rw [length_gatherChunks]; exact hJ
  have l2 : (J + 1) * 2 ^ (s + 2) ≤ (compPass (s + 1)
      (gatherChunks (shuffleSrc (2 ^ (s + 2))) (2 ^ (s + 2)) y)).length := by
    rw [length_compPass]; exact l1
  have l3 : (J + 1) * 2 ^ (s + 2) ≤
      (gatherChunks (butterflySrc (2 ^ (s + 2))) (2 ^ (s + 2)) (compPass (s + 1)
        (gatherChunks (shuffleSrc (2 ^ (s + 2))) (2 ^ (s + 2)) y))).length := by
    rw [length_gatherChunks]; exact l2
  have l4 : (J + 1) * 2 ^ (s + 2) ≤ (stageLoop (s + 1) s (2 ^ (s + 1))
      (gatherChunks (butterflySrc (2 ^ (s + 2))) (2 ^ (s + 2)) (compPass (s + 1)
        (gatherChunks (shuffleSrc (2 ^ (s + 2))) (2 ^ (s + 2)) y)))).length := by
    rw [length_stageLoop]; exact l3
  rw [chunk_compPass (s + 1) J _ l4,
    chunk_stageLoop (s + 1) J s s _ (le_refl s) (by omega) l3,
    chunk_gatherChunks (butterflySrc (2 ^ (s + 2))) J
      (Nat.pos_pow_of_pos _ (by norm_num)) dvd_rfl (butterflySrc_bound (s + 1)) _ l2,
    chunk_compPass (s + 1) J _ l1,
    chunk_gatherChunks (shuffleSrc (2 ^ (s + 2))) J
      (Nat.pos_pow_of_pos _ (by norm_num)) dvd_rfl (shuffleSrc_bound (s + 1)) _ hJ]
  rfl


/-! ### 0-1 valued lists and cyclic-interval combinatorics -/

lemma getD_take {l : List Int} {n i : Nat} (h : i < n) :
    (l.take n).getD i 0 = l.getD i 0 := by
  by_cases hl : i < l.length
  · rw [List.getD_eq_getElem _ _ (by simp; omega), List.getD_eq_getElem _ _ hl]
    exact List.getElem_take _
  · rw [List.getD_eq_default _ _ (by simp; omega), List.getD_eq_default _ _ (by omega)]

lemma getD_drop {l : List Int} {n i : Nat} :
    (l.drop n).getD i 0 = l.getD (n + i) 0 := by
  by_cases hl : n + i < l.length
  · rw [List.getD_eq_getElem _ _ (by simp; omega), List.getD_eq_getElem _ _ hl]
    exact List.getElem_drop l
  · rw [List.getD_eq_default _ _ (by simp; omega), List.getD_eq_default _ _ (by omega)]

lemma Val01_getD {l : List Int} (h : Val01 l) (i : Nat) :
    l.getD i 0 = 0 ∨ l.getD i 0 = 1 := by
  by_cases hi : i < l.length
  · rw [List.getD_eq_getElem _ _ hi]
    exact h _ (List.getElem_mem hi)
  · rw [List.getD_eq_default _ _ (by omega)]
    exact Or.inl rfl

lemma Val01_of_getD {l : List Int} (h : ∀ i < l.length, l.getD i 0 = 0 ∨ l.getD i 0 = 1) :
    Val01 l := by
  intro x hx
  obtain ⟨i, hi, rfl⟩ := List.mem_iff_getElem.mp hx
  rw [← List.getD_eq_getElem _ 0 hi]
  exact h i hi

lemma cmpSwapPair_cases (d : Bool) (p : Int × Int) :
    cmpSwapPair d p = p ∨ cmpSwapPair d p = (p.2, p.1) := by
  unfold cmpSwapPair
  split_ifs
  · right; rfl
  · left; rfl

lemma Val01_compPass (lvl : Nat) {x : List Int} (h : Val01 x) :
    Val01 (compPass lvl x) := by
  apply Val01_of_getD
  intro i hi
  rw [length_compPass] at hi
  rw [compPass_getD _ _ hi]
  rcases cmpSwapPair_cases (compBool lvl (i / 2)) (x.getD (2 * (i / 2)) 0, x.getD (2 * (i / 2) + 1) 0) with hc | hc <;>
    rw [hc] <;> split_ifs <;>
    first
      | exact Val01_getD h _
      | exact Val01_getD h _

lemma Val01_pairsComp (d : Bool) {x : List Int} (h : Val01 x) :
    Val01 (pairsComp d x) := by
  apply Val01_of_getD
  intro i hi
  rw [length_pairsComp] at hi
  rw [pairsComp_getD _ _ hi]
  rcases cmpSwapPair_cases d (x.getD (2 * (i / 2)) 0, x.getD (2 * (i / 2) + 1) 0) with hc | hc <;>
    rw [hc] <;> split_ifs <;> exact Val01_getD h _

lemma Val01_gatherChunks (src : Nat → Nat) (C : Nat) {x : List Int} (h : Val01 x) :
    Val01 (gatherChunks src C x) := by
  apply Val01_of_getD
  intro i hi
  rw [length_gatherChunks] at hi
  rw [gatherChunks_getD _ _ _ hi]
  exact Val01_getD h _

lemma Val01_distComp (d : Bool) {x : List Int} (h : Val01 x) :
    Val01 (distComp d x) := by
  apply Val01_of_getD
  intro i hi
  rw [length_distComp] at hi
  rw [distComp_getD _ _ hi]
  split_ifs <;>
    · rcases cmpSwapPair_cases d _ with hc | hc <;> rw [hc] <;> exact Val01_getD h _

lemma Val01_stageLoop (lvl : Nat) : ∀ r C {x : List Int}, Val01 x → Val01 (stageLoop lvl r C x) := by
  intro r
  induction r with
  | zero => intro C x h; exact h
  | succ r ih =>
    intro C x h
    rw [stageLoop]
    exact ih _ (Val01_gatherChunks _ _ (Val01_compPass _ (Val01_compPass _ h)))

lemma Val01_fullStage (s : Nat) {x : List Int} (h : Val01 x) : Val01 (fullStage s x) := by
  rw [fullStage]
  exact Val01_stageLoop _ _ _
    (Val01_gatherChunks _ _ (Val01_compPass _ (Val01_gatherChunks _ _ (Val01_compPass _ h))))

lemma Val01_take (n : Nat) {x : List Int} (h : Val01 x) : Val01 (x.take n) :=
  fun a ha => h a (List.take_subset n x ha)

lemma Val01_drop (n : Nat) {x : List Int} (h : Val01 x) : Val01 (x.drop n) :=
  fun a ha => h a (List.drop_subset n x ha)

lemma Val01_append {u v : List Int} (hu : Val01 u) (hv : Val01 v) : Val01 (u ++ v) := by
  intro a ha
  rcases List.mem_append.mp ha with h | h
  · exact hu a h
  · exact hv a h

lemma chunk_split (J C : Nat) (x : List Int) (h : (J + 1) * (2 * C) ≤ x.length) :
    chunk J (2 * C) x = chunk (2 * J) C x ++ chunk (2 * J + 1) C x := by
  have h1 : (2 * J + 1) * C ≤ x.length := by nlinarith
  have h2 : (2 * J + 1 + 1) * C ≤ x.length := by nlinarith
  apply getD_ext
  · rw [length_chunk h, List.length_append, length_chunk h1, length_chunk h2]
    omega
  · intro i hi
    rw [length_chunk h] at hi
    rw [chunk_getD hi h]
    by_cases hic : i < C
    · rw [List.getD_append _ _ _ _ (by rw [length_chunk h1]; omega),
        chunk_getD hic h1,
        (show J * (2 * C) + i = 2 * J * C + i by ring_nf)]
    · rw [List.getD_append_right _ _ _ _ (by rw [length_chunk h1]; omega),
        length_chunk h1,
        chunk_getD (show i - C < C by omega) h2,
        (show (2 * J + 1) * C + (i - C) = J * (2 * C) + i by
          have e : (2 * J + 1) * C = 2 * J * C + C := by ring
          have e2 : J * (2 * C) = 2 * J * C := by ring
          omega)]

lemma steps_to_cyc {u v : List Int} {p0 p1 C : Nat} (hu : u.length = C) (hv : v.length = C)
    (hp0 : p0 ≤ C) (hp1 : p1 ≤ C) (hsu : StepUp u p0) (hsv : StepDn v p1) :
    OnesCyc (u ++ v) p0 (C + p1 - p0) := by
  intro i hi
  rw [List.length_append, hu, hv] at hi ⊢
  by_cases hic : i < C
  · rw [List.getD_append _ _ _ _ (by omega)]
    rw [StepUp] at hsu
    rw [hsu i (by omega)]
    omega
  · rw [List.getD_append_right _ _ _ _ (by omega), hu]
    rw [StepDn] at hsv
    rw [hsv (i - C) (by omega)]
    omega


lemma distComp_cyc (d : Bool) {x : List Int} {a b m : Nat} (hm : 0 < m)
    (hx : x.length = 2 * m) (hval : Val01 x) (ha : a < 2 * m) (hb : b ≤ 2 * m)
    (hcyc : OnesCyc x a b) :
    OnesCyc ((distComp d x).take m) (a % m) (if d then min b m else b - m) ∧
      OnesCyc ((distComp d x).drop m) (a % m) (if d then b - m else min b m) := by
  have hx2 : x.length / 2 = m := by omega
  have hlt : ((distComp d x).take m).length = m := by
    rw [List.length_take, length_distComp, hx]
    omega
  have hld : ((distComp d x).drop m).length = m := by
    rw [List.length_drop, length_distComp, hx]
    omega
  have ham : (a < m ∧ a % m = a) ∨ (m ≤ a ∧ a % m = a - m) := by
    by_cases hc : a < m
    · exact Or.inl ⟨hc, Nat.mod_eq_of_lt hc⟩
    · refine Or.inr ⟨by omega, ?_⟩
      rw [Nat.mod_eq_sub_mod (by omega), Nat.mod_eq_of_lt (by omega)]
  constructor
  · intro i hi
    rw [hlt] at hi ⊢
    rw [getD_take hi, distComp_getD _ _ (by omega), hx2, if_pos hi]
    have e1 := hcyc i (by omega)
    have e2 := hcyc (i + m) (by omega)
    have hv1 := Val01_getD hval i
    have hv2 := Val01_getD hval (i + m)
    rw [hx] at e1 e2
    rcases d
    · rw [cmpSwapPair_false]
      simp only [Bool.false_eq_true, if_false]
      rcases ham with ⟨h1, h⟩ | ⟨h1, h⟩ <;> rw [h] <;> omega
    · rw [cmpSwapPair_true]
      simp only [if_true]
      rcases ham with ⟨h1, h⟩ | ⟨h1, h⟩ <;> rw [h] <;> omega
  · intro i hi
    rw [hld] at hi ⊢
    rw [getD_drop, distComp_getD _ _ (by omega), hx2,
      if_neg (by omega), (show m + i - m = i by omega)]
    have e1 := hcyc i (by omega)
    have e2 := hcyc (i + m) (by omega)
    have hv1 := Val01_getD hval i
    have hv2 := Val01_getD hval (i + m)
    rw [hx] at e1 e2
    have emi : m + i = i + m := by omega
    rw [emi]
    rcases d
    · rw [cmpSwapPair_false]
      simp only [Bool.false_eq_true, if_false]
      rcases ham with ⟨h1, h⟩ | ⟨h1, h⟩ <;> rw [h] <;> omega
    · rw [cmpSwapPair_true]
      simp only [if_true]
      rcases ham with ⟨h1, h⟩ | ⟨h1, h⟩ <;> rw [h] <;> omega


/-- The merge stage sorts every bitonic 0-1 chunk: ascending for direction bit
`false`, descending for `true`, with the number of ones preserved. -/
lemma mergeSeq_sorts :
    ∀ s (d : Bool) (x : List Int) (a b : Nat), x.length = 2 ^ (s + 2) → Val01 x →
      a < x.length → b ≤ x.length → OnesCyc x a b →
      Val01 (mergeSeq s d x) ∧
        (d = false → StepUp (mergeSeq s d x) (x.length - b)) ∧
        (d = true → StepDn (mergeSeq s d x) b) := by
  intro s
  induction s with
  | zero =>
    intro d x a b hx hval ha hb hcyc
    rcases x with _ | ⟨x0, _ | ⟨x1, _ | ⟨x2, _ | ⟨x3, _ | ⟨x4, t⟩⟩⟩⟩⟩ <;> simp at hx
    have h0 := hval x0 (by simp)
    have h1 := hval x1 (by simp)
    have h2 := hval x2 (by simp)
    have h3 := hval x3 (by simp)
    revert hcyc hb; revert b; revert ha; revert a
    rcases d <;> rcases h0 with rfl | rfl <;> rcases h1 with rfl | rfl <;>
      rcases h2 with rfl | rfl <;> rcases h3 with rfl | rfl <;> decide
  | succ s ih =>
    intro d x a b hx hval ha hb hcyc
    have hC : (0 : Nat) < 2 ^ (s + 2) := Nat.pos_pow_of_pos _ (by norm_num)
    have hx2m : x.length = 2 * 2 ^ (s + 2) := by
      rw [hx, pow_succ]
      ring
    have hrec := mergeSeq_rec s d x (by rw [hx])
    have hdist := distComp_cyc d hC hx2m hval (by omega) (by omega) hcyc
    have hvy : Val01 (distComp d x) := Val01_distComp d hval
    have hly : (distComp d x).length = 2 * 2 ^ (s + 2) := by
      rw [length_distComp, hx2m]
    have hl1 : ((distComp d x).take (2 ^ (s + 2))).length = 2 ^ (s + 2) := by
      rw [List.length_take, hly]
      omega
    have hl2 : ((distComp d x).drop (2 ^ (s + 2))).length = 2 ^ (s + 2) := by
      rw [List.length_drop, hly]
      omega
    have hb1 : (if d then min b (2 ^ (s + 2)) else b - 2 ^ (s + 2)) ≤ 2 ^ (s + 2) := by
      rcases d <;> simp <;> omega
    have hb2 : (if d then b - 2 ^ (s + 2) else min b (2 ^ (s + 2))) ≤ 2 ^ (s + 2) := by
      rcases d <;> simp <;> omega
    have ih1 := ih d ((distComp d x).take (2 ^ (s + 2))) (a % 2 ^ (s + 2))
      (if d then min b (2 ^ (s + 2)) else b - 2 ^ (s + 2))
      hl1 (Val01_take _ hvy) (by rw [hl1]; exact Nat.mod_lt _ hC) (by rw [hl1]; exact hb1)
      hdist.1
    have ih2 := ih d ((distComp d x).drop (2 ^ (s + 2))) (a % 2 ^ (s + 2))
      (if d then b - 2 ^ (s + 2) else min b (2 ^ (s + 2)))
      hl2 (Val01_drop _ hvy) (by rw [hl2]; exact Nat.mod_lt _ hC) (by rw [hl2]; exact hb2)
      hdist.2
    have hlz1 : (mergeSeq s d ((distComp d x).take (2 ^ (s + 2)))).length = 2 ^ (s + 2) := by
      rw [length_mergeSeq, hl1]
    have hlz2 : (mergeSeq s d ((distComp d x).drop (2 ^ (s + 2)))).length = 2 ^ (s + 2) := by
      rw [length_mergeSeq, hl2]
    rw [hrec]
    refine ⟨Val01_append ih1.1 ih2.1, ?_, ?_⟩
    · rintro rfl
      have su1 := ih1.2.1 rfl
      have su2 := ih2.2.1 rfl
      rw [hl1] at su1
      rw [hl2] at su2
      simp only [Bool.false_eq_true, if_false] at su1 su2
      rw [hx2m] at hb
      intro i hi
      rw [List.length_append, hlz1, hlz2] at hi
      rw [hx2m]
      by_cases hic : i < 2 ^ (s + 2)
      · rw [List.getD_append _ _ _ _ (by rw [hlz1]; omega)]
        rw [StepUp] at su1
        rw [su1 i (by rw [hlz1]; omega)]
        omega
      · rw [List.getD_append_right _ _ _ _ (by rw [hlz1]; omega), hlz1]
        rw [StepUp] at su2
        rw [su2 (i - 2 ^ (s + 2)) (by rw [hlz2]; omega)]
        omega
    · rintro rfl
      have sd1 := ih1.2.2 rfl
      have sd2 := ih2.2.2 rfl
      simp only [if_true] at sd1 sd2
      rw [hx2m] at hb
      intro i hi
      rw [List.length_append, hlz1, hlz2] at hi
      by_cases hic : i < 2 ^ (s + 2)
      · rw [List.getD_append _ _ _ _ (by rw [hlz1]; omega)]
        rw [StepDn] at sd1
        rw [sd1 i (by rw [hlz1]; omega)]
        omega
      · rw [List.getD_append_right _ _ _ _ (by rw [hlz1]; omega), hlz1]
        rw [StepDn] at sd2
        rw [sd2 (i - 2 ^ (s + 2)) (by rw [hlz2]; omega)]
        omega


lemma length_stageStep (s : Nat) (z : List Int) : (stageStep s z).length = z.length := by
  rw [stageStep, length_compPass, length_stageLoop, length_gatherChunks, length_compPass,
    length_gatherChunks]

lemma Val01_stageStep (s : Nat) {z : List Int} (h : Val01 z) : Val01 (stageStep s z) := by
  rw [stageStep]
  exact Val01_compPass _ (Val01_stageLoop _ _ _
    (Val01_gatherChunks _ _ (Val01_compPass _ (Val01_gatherChunks _ _ h))))

lemma length_zIter : ∀ k st (z : List Int), (zIter st k z).length = z.length := by
  intro k
  induction k with
  | zero => intro st z; rfl
  | succ k ih =>
    intro st z
    rw [zIter, ih, length_stageStep]

lemma Val01_zIter : ∀ k st {z : List Int}, Val01 z → Val01 (zIter st k z) := by
  intro k
  induction k with
  | zero => intro st z h; exact h
  | succ k ih =>
    intro st z h
    rw [zIter]
    exact ih _ (Val01_stageStep _ h)

/-- Regrouping the launch chain at the stage-opening compares: the data after
the closing `compareAndSwap` of `stagesFrom` equals `k` regrouped stages
applied to the data after the first `compareAndSwap`. -/
lemma compPass_stagesFrom : ∀ k st (x : List Int),
    compPass (st + k) (stagesFrom st (k + 1) x) = zIter st k (compPass st x) := by
  intro k
  induction k with
  | zero => intro st x; rfl
  | succ k ih =>
    intro st x
    have e : st + (k + 1) = st + 1 + k := by omega
    rw [e]
    have hs : stagesFrom st (k + 1 + 1) x = stagesFrom (st + 1) (k + 1) (fullStage st x) := rfl
    rw [hs, ih (st + 1) (fullStage st x)]
    have hr : compPass (st + 1) (fullStage st x) = stageStep st (compPass st x) := rfl
    rw [hr]
    rfl

/-- `benyan` on `2^(k+1)` keys is the opening compare followed by `k`
regrouped stages. -/
lemma benyanRun_zIter (k : Nat) (l : List Int) :
    benyanRun (k + 1) l = zIter 0 k (compPass 0 l) := by
  rw [benyanRun_decompose (k + 1) (by omega) l]
  have e : k + 1 - 1 = 0 + k := by omega
  rw [e]
  exact compPass_stagesFrom k 0 l

/-- A single comparator on a 0-1 pair produces an ascending or descending run
according to its direction bit. -/
lemma pairsComp_runs (d : Bool) (x : List Int) (hx : x.length = 2) (hval : Val01 x) :
    ∃ p ≤ 2, (d = false → StepUp (pairsComp d x) p) ∧ (d = true → StepDn (pairsComp d x) p) := by
  rcases x with _ | ⟨a, _ | ⟨b, _ | ⟨c, t⟩⟩⟩ <;> simp at hx
  have ha := hval a (by simp)
  have hb := hval b (by simp)
  rcases d <;> rcases ha with rfl | rfl <;> rcases hb with rfl | rfl <;> decide


lemma Val01_chunk (J C : Nat) {z : List Int} (h : Val01 z) : Val01 (chunk J C z) := by
  show Val01 ((z.drop (J * C)).take C)
  exact Val01_take _ (Val01_drop _ h)

/-- Invariant induction: entering stage `st` (just after its opening compare)
with every length-`2^(st+1)` chunk an alternating ascending/descending 0-1 run,
the remaining `k` regrouped stages produce a single ascending run. -/
lemma zIter_sorts : ∀ k st (z : List Int), Val01 z → z.length = 2 ^ (st + 1 + k) →
    (∀ J, J < 2 ^ k → ∃ p ≤ 2 ^ (st + 1),
      (J % 2 = 0 → StepUp (chunk J (2 ^ (st + 1)) z) p) ∧
      (J % 2 = 1 → StepDn (chunk J (2 ^ (st + 1)) z) p)) →
    ∃ p ≤ 2 ^ (st + 1 + k), StepUp (zIter st k z) p := by
  intro k
  induction k with
  | zero =>
    intro st z hval hlen hinv
    obtain ⟨p, hp, h0, -⟩ := hinv 0 (by norm_num)
    have hlen' : z.length = 2 ^ (st + 1) := by simpa using hlen
    have hch : chunk 0 (2 ^ (st + 1)) z = z := by
      show (z.drop (0 * 2 ^ (st + 1))).take (2 ^ (st + 1)) = z
      rw [Nat.zero_mul, List.drop_zero]
      exact List.take_of_length_le (by rw [hlen'])
    refine ⟨p, by simpa using hp, ?_⟩
    have hres := h0 rfl
    rw [hch] at hres
    exact hres
  | succ k ih =>
    intro st z hval hlen hinv
    have e2 : (2 : Nat) ^ (st + 2) = 2 * 2 ^ (st + 1) := two_pow_succ_eq (st + 1)
    have hpow1 : 0 < (2 : Nat) ^ (st + 1) := Nat.pos_pow_of_pos _ (by norm_num)
    have hlen' : z.length = 2 ^ k * 2 ^ (st + 2) := by
      rw [hlen, ← pow_add]
      have e : k + (st + 2) = st + 1 + (k + 1) := by omega
      rw [e]
    have hinv2 : ∀ J, J < 2 ^ k → ∃ p ≤ 2 ^ (st + 1 + 1),
        (J % 2 = 0 → StepUp (chunk J (2 ^ (st + 1 + 1)) (stageStep st z)) p) ∧
        (J % 2 = 1 → StepDn (chunk J (2 ^ (st + 1 + 1)) (stageStep st z)) p) := by
      intro J hJ
      have est : st + 1 + 1 = st + 2 := by omega
      rw [est]
      have hJb : (J + 1) * 2 ^ (st + 2) ≤ z.length := by
        rw [hlen']
        exact Nat.mul_le_mul_right _ (by omega)
      have hcs : chunk J (2 ^ (st + 2)) (stageStep st z) =
          mergeSeq st (decide (J % 2 = 1)) (chunk J (2 ^ (st + 2)) z) :=
        chunk_stage st J z hJb
      have hsplit : chunk J (2 ^ (st + 2)) z =
          chunk (2 * J) (2 ^ (st + 1)) z ++ chunk (2 * J + 1) (2 ^ (st + 1)) z := by
        rw [e2]
        exact chunk_split J (2 ^ (st + 1)) z (by rw [← e2]; exact hJb)
      have e3 : (2 : Nat) ^ (k + 1) = 2 * 2 ^ k := two_pow_succ_eq k
      obtain ⟨p0, hp0, hu0, -⟩ := hinv (2 * J) (by omega)
      obtain ⟨p1, hp1, -, hd1⟩ := hinv (2 * J + 1) (by omega)
      have hsu := hu0 (by omega)
      have hsv := hd1 (by omega)
      have hb1 : (2 * J + 1) * 2 ^ (st + 1) ≤ z.length := by
        have h4 : (2 * J + 1 + 1) * 2 ^ (st + 1) = (J + 1) * 2 ^ (st + 2) := by
          rw [e2]; ring
        have h5 : (2 * J + 1) * 2 ^ (st + 1) ≤ (2 * J + 1 + 1) * 2 ^ (st + 1) :=
          Nat.mul_le_mul_right _ (by omega)
        omega
      have hb2 : (2 * J + 1 + 1) * 2 ^ (st + 1) ≤ z.length := by
        have h4 : (2 * J + 1 + 1) * 2 ^ (st + 1) = (J + 1) * 2 ^ (st + 2) := by
          rw [e2]; ring
        omega
      have hlu : (chunk (2 * J) (2 ^ (st + 1)) z).length = 2 ^ (st + 1) :=
        length_chunk hb1
      have hlv : (chunk (2 * J + 1) (2 ^ (st + 1)) z).length = 2 ^ (st + 1) :=
        length_chunk hb2
      have hcyc := steps_to_cyc hlu hlv hp0 hp1 hsu hsv
      have hlen12 : (chunk (2 * J) (2 ^ (st + 1)) z ++
          chunk (2 * J + 1) (2 ^ (st + 1)) z).length = 2 ^ (st + 2) := by
        rw [List.length_append, hlu, hlv]
        omega
      have hval12 : Val01 (chunk (2 * J) (2 ^ (st + 1)) z ++
          chunk (2 * J + 1) (2 ^ (st + 1)) z) :=
        Val01_append (Val01_chunk _ _ hval) (Val01_chunk _ _ hval)
      have hms := mergeSeq_sorts st (decide (J % 2 = 1))
        (chunk (2 * J) (2 ^ (st + 1)) z ++ chunk (2 * J + 1) (2 ^ (st + 1)) z)
        p0 (2 ^ (st + 1) + p1 - p0)
        hlen12 hval12 (by rw [hlen12]; omega) (by rw [hlen12]; omega) hcyc
      rw [hcs, hsplit]
      by_cases hJ2 : J % 2 = 0
      · refine ⟨2 ^ (st + 2) - (2 ^ (st + 1) + p1 - p0), by omega, fun _ => ?_,
          fun hc => absurd hc (by omega)⟩
        have hd : decide (J % 2 = 1) = false := by simp [hJ2]
        have hres := hms.2.1 hd
        rw [hlen12] at hres
        exact hres
      · have hJ1 : J % 2 = 1 := by omega
        refine ⟨2 ^ (st + 1) + p1 - p0, by omega, fun hc => absurd hc (by omega), fun _ => ?_⟩
        have hd : decide (J % 2 = 1) = true := by simp [hJ1]
        exact hms.2.2 hd
    have hlen2 : (stageStep st z).length = 2 ^ (st + 1 + 1 + k) := by
      rw [length_stageStep, hlen]
      congr 1
      omega
    obtain ⟨p, hp, hstep⟩ := ih (st + 1) (stageStep st z) (Val01_stageStep st hval) hlen2 hinv2
    refine ⟨p, ?_, ?_⟩
    · rw [show st + 1 + (k + 1) = st + 1 + 1 + k from by omega]
      exact hp
    · rw [zIter]
      exact hstep


/-- `benyan` sorts every 0-1 input of length `2^n` into ascending (zeros then
ones) order. -/
lemma benyanRun_zero_one (n : Nat) (l : List Int) (hn : 0 < n) (hl : l.length = 2 ^ n)
    (hval : Val01 l) : ∃ p ≤ 2 ^ n, StepUp (benyanRun n l) p := by
  obtain ⟨k, rfl⟩ : ∃ k, n = k + 1 := ⟨n - 1, by omega⟩
  rw [benyanRun_zIter]
  have hlz : (compPass 0 l).length = 2 ^ (0 + 1 + k) := by
    rw [length_compPass, hl]
    congr 1
    omega
  have hinv : ∀ J, J < 2 ^ k → ∃ p ≤ 2 ^ (0 + 1),
      (J % 2 = 0 → StepUp (chunk J (2 ^ (0 + 1)) (compPass 0 l)) p) ∧
      (J % 2 = 1 → StepDn (chunk J (2 ^ (0 + 1)) (compPass 0 l)) p) := by
    intro J hJ
    have hJb : (J + 1) * 2 ^ (0 + 1) ≤ l.length := by
      rw [hl]
      have e3 : (2 : Nat) ^ (k + 1) = 2 * 2 ^ k := two_pow_succ_eq k
      have e1 : (2 : Nat) ^ (0 + 1) = 2 := by norm_num
      rw [e1]
      omega
    have hcc : chunk J (2 ^ (0 + 1)) (compPass 0 l) =
        pairsComp (decide (J % 2 = 1)) (chunk J (2 ^ (0 + 1)) l) :=
      chunk_compPass 0 J l hJb
    have hchl : (chunk J (2 ^ (0 + 1)) l).length = 2 := by
      rw [length_chunk hJb]
      norm_num
    obtain ⟨p, hp, hfu, hft⟩ := pairsComp_runs (decide (J % 2 = 1))
      (chunk J (2 ^ (0 + 1)) l) hchl (Val01_chunk _ _ hval)
    refine ⟨p, by simpa using hp, fun hJ2 => ?_, fun hJ1 => ?_⟩
    · rw [hcc]
      exact hfu (by simp [hJ2])
    · rw [hcc]
      exact hft (by simp [hJ1])
  obtain ⟨p, hp, hs⟩ := zIter_sorts k 0 (compPass 0 l) (Val01_compPass 0 hval) hlz hinv
  rw [show 0 + 1 + k = k + 1 from by omega] at hp
  exact ⟨p, hp, hs⟩


/-! ### The 0-1 principle: monotone maps commute with the network -/

lemma cmpSwapPair_map (g : Int → Int) (hg : Monotone g) (d : Bool) (a b : Int) :
    cmpSwapPair d (g a, g b) = (g (cmpSwapPair d (a, b)).1, g (cmpSwapPair d (a, b)).2) := by
  rcases d
  · rw [cmpSwapPair_false, cmpSwapPair_false]
    simp [hg.map_min, hg.map_max]
  · rw [cmpSwapPair_true, cmpSwapPair_true]
    simp [hg.map_min, hg.map_max]

lemma map_compPass (g : Int → Int) (hg : Monotone g) (lvl : Nat) (x : List Int)
    (hx : 2 ∣ x.length) :
    compPass lvl (x.map g) = (compPass lvl x).map g := by
  apply getD_ext
  · rw [length_compPass, List.length_map, List.length_map, length_compPass]
  intro i hi
  rw [length_compPass, List.length_map] at hi
  have h0 : 2 * (i / 2) < x.length := by omega
  have h1 : 2 * (i / 2) + 1 < x.length := by
    obtain ⟨q, hq⟩ := hx
    omega
  rw [compPass_getD lvl (x.map g) (by rw [List.length_map]; exact hi),
    getD_map_in g (compPass lvl x) (by rw [length_compPass]; exact hi),
    compPass_getD lvl x hi,
    getD_map_in g x h0, getD_map_in g x h1, cmpSwapPair_map g hg]
  by_cases h2 : i % 2 = 0 <;> simp [h2]

lemma map_gatherChunks (g : Int → Int) (src : Nat → Nat) (C : Nat) (hC : 0 < C)
    (hsrc : ∀ p < C, src p < C) (x : List Int) (hdvd : C ∣ x.length) :
    gatherChunks src C (x.map g) = (gatherChunks src C x).map g := by
  apply getD_ext
  · rw [length_gatherChunks, List.length_map, List.length_map, length_gatherChunks]
  intro i hi
  rw [length_gatherChunks, List.length_map] at hi
  obtain ⟨q, hq⟩ := hdvd
  have hidx : (i / C) * C + src (i % C) < x.length := by
    have hs := hsrc (i % C) (Nat.mod_lt _ hC)
    have hdlt : i / C < q := Nat.div_lt_of_lt_mul (by rw [← hq]; exact hi)
    have h2 : (i / C + 1) * C ≤ q * C := Nat.mul_le_mul_right C (by omega)
    have e : (i / C + 1) * C = (i / C) * C + C := by ring
    have e2 : q * C = C * q := by ring
    omega
  rw [gatherChunks_getD src C (x.map g) (by rw [List.length_map]; exact hi),
    getD_map_in g (gatherChunks src C x) (by rw [length_gatherChunks]; exact hi),
    gatherChunks_getD src C x hi,
    getD_map_in g x hidx]

lemma map_stageLoop (g : Int → Int) (hg : Monotone g) (lvl : Nat) :
    ∀ r c (x : List Int), r ≤ c → 2 ^ (c + 1) ∣ x.length →
      stageLoop lvl r (2 ^ (c + 1)) (x.map g) = (stageLoop lvl r (2 ^ (c + 1)) x).map g := by
  intro r
  induction r with
  | zero => intro c x _ _; rfl
  | succ r ih =>
    intro c x hrc hdvd
    obtain ⟨c', rfl⟩ : ∃ c', c = c' + 1 := ⟨c - 1, by omega⟩
    have h2 : (2 : Nat) ∣ x.length := dvd_trans (dvd_pow_self 2 (by omega)) hdvd
    rw [stageLoop, stageLoop, pow_succ_div_two]
    rw [map_compPass g hg lvl x h2,
      map_compPass g hg lvl (compPass lvl x) (by rw [length_compPass]; exact h2),
      map_gatherChunks g (butterflySrc (2 ^ (c' + 1 + 1))) (2 ^ (c' + 1 + 1))
        (Nat.pos_pow_of_pos _ (by norm_num)) (butterflySrc_bound (c' + 1)) _
        (by rw [length_compPass, length_compPass]; exact hdvd),
      ih c' _ (by omega)
        (by rw [length_gatherChunks, length_compPass, length_compPass]
            exact dvd_trans (pow_dvd_pow 2 (by omega)) hdvd)]

lemma map_fullStage (g : Int → Int) (hg : Monotone g) (st : Nat) (x : List Int)
    (hdvd : 2 ^ (st + 2) ∣ x.length) :
    fullStage st (x.map g) = (fullStage st x).map g := by
  have h2 : (2 : Nat) ∣ x.length := dvd_trans (dvd_pow_self 2 (by omega)) hdvd
  rw [fullStage, fullStage]
  rw [map_compPass g hg st x h2,
    map_gatherChunks g (shuffleSrc (2 ^ (st + 2))) (2 ^ (st + 2))
      (Nat.pos_pow_of_pos _ (by norm_num)) (shuffleSrc_bound (st + 1)) _
      (by rw [length_compPass]; exact hdvd),
    map_compPass g hg (st + 1) _
      (by rw [length_gatherChunks, length_compPass]; exact h2),
    map_gatherChunks g (butterflySrc (2 ^ (st + 2))) (2 ^ (st + 2))
      (Nat.pos_pow_of_pos _ (by norm_num)) (butterflySrc_bound (st + 1)) _
      (by rw [length_compPass, length_gatherChunks, length_compPass]; exact hdvd),
    map_stageLoop g hg (st + 1) st st _ (le_refl st)
      (by rw [length_gatherChunks, length_compPass, length_gatherChunks, length_compPass]
          exact dvd_trans (pow_dvd_pow 2 (by omega)) hdvd)]

lemma map_stagesFrom (g : Int → Int) (hg : Monotone g) :
    ∀ r st (x : List Int), 2 ^ (st + r) ∣ x.length →
      stagesFrom st r (x.map g) = (stagesFrom st r x).map g := by
  intro r
  induction r using Nat.strong_induction_on with
  | _ r ih =>
    intro st x hdvd
    match r with
    | 0 => rfl
    | 1 => rfl
    | r + 2 =>
      have hst2 : (2 : Nat) ^ (st + 2) ∣ x.length := dvd_trans (pow_dvd_pow 2 (by omega)) hdvd
      have e1 : stagesFrom st (r + 2) (x.map g) =
          stagesFrom (st + 1) (r + 1) (fullStage st (x.map g)) := rfl
      have e2 : stagesFrom st (r + 2) x =
          stagesFrom (st + 1) (r + 1) (fullStage st x) := rfl
      rw [e1, e2, map_fullStage g hg st x hst2]
      exact ih (r + 1) (by omega) (st + 1) (fullStage st x)
        (by rw [length_fullStage]; exact dvd_trans (pow_dvd_pow 2 (by omega)) hdvd)

/-- A monotone key transformation commutes with the whole network: the network
is a comparator network, so it treats keys only through order comparisons. -/
lemma map_benyanRun (g : Int → Int) (hg : Monotone g) (n : Nat) (hn : 0 < n)
    (x : List Int) (hdvd : 2 ^ n ∣ x.length) :
    benyanRun n (x.map g) = (benyanRun n x).map g := by
  rw [benyanRun_decompose n hn, benyanRun_decompose n hn]
  rw [map_stagesFrom g hg n 0 x (by rw [Nat.zero_add]; exact hdvd),
    map_compPass g hg (n - 1) _
      (by rw [length_stagesFrom]; exact dvd_trans (dvd_pow_self 2 (by omega)) hdvd)]

lemma threshold_mono (T : Int) : Monotone (fun t : Int => if T ≤ t then (1 : Int) else 0) := by
  intro a b hab
  dsimp only
  split_ifs with h1 h2 <;> omega

lemma threshold_val01 (T : Int) (l : List Int) :
    Val01 (l.map (fun t => if T ≤ t then (1 : Int) else 0)) := by
  intro x hx
  obtain ⟨a, -, rfl⟩ := List.mem_map.mp hx
  split_ifs
  · right; rfl
  · left; rfl


/-- C1: sortedness of the network output — for every `n ≥ 0` and every input
array of `N = 2^n` keys, after `benyan` returns the keys are in monotone
(ascending) order: for all adjacent positions `i`, `i+1` in `[0, N)`,
`key[i] ≤ key[i+1]`. -/
theorem network_sorts (n : Nat) (l : List Int) (hl : l.length = 2 ^ n) :
    List.Chain' (· ≤ ·) (benyanRun n l) := by
  rcases Nat.eq_zero_or_pos n with rfl | hn
  · have hb : benyanRun 0 l = l := rfl
    rw [hb]
    rcases l with _ | ⟨a, _ | ⟨b, t⟩⟩
    · exact List.chain'_nil
    · exact List.chain'_singleton a
    · norm_num at hl
  · have hlen : (benyanRun n l).length = 2 ^ n := by
      rw [benyanRun_decompose n hn, length_compPass, length_stagesFrom, hl]
    by_contra hnot
    rw [List.chain'_iff_get] at hnot
    push_neg at hnot
    obtain ⟨i, hi, hgt⟩ := hnot
    have hi1 : i + 1 < (benyanRun n l).length := by omega
    have hi0 : i < (benyanRun n l).length := by omega
    have hgt' : (benyanRun n l).getD (i + 1) 0 < (benyanRun n l).getD i 0 := by
      rw [List.getD_eq_getElem _ _ hi1, List.getD_eq_getElem _ _ hi0]
      exact hgt
    have hmono := threshold_mono ((benyanRun n l).getD i 0)
    have hcomm := map_benyanRun
      (fun t : Int => if (benyanRun n l).getD i 0 ≤ t then (1 : Int) else 0)
      hmono n hn l (by rw [hl])
    have h01 := benyanRun_zero_one n
      (l.map (fun t : Int => if (benyanRun n l).getD i 0 ≤ t then (1 : Int) else 0)) hn
      (by rw [List.length_map, hl])
      (threshold_val01 ((benyanRun n l).getD i 0) l)
    rw [hcomm] at h01
    obtain ⟨p, hp, hstep⟩ := h01
    rw [StepUp] at hstep
    have hs1 := hstep i (by rw [List.length_map]; omega)
    have hs0 := hstep (i + 1) (by rw [List.length_map]; omega)
    rw [getD_map_in _ (benyanRun n l) hi0] at hs1
    rw [getD_map_in _ (benyanRun n l) hi1] at hs0
    rw [if_pos (le_refl _)] at hs1
    rw [if_neg (by omega)] at hs0
    have h1 : p ≤ i := hs1.mp rfl
    have h2 : ¬ p ≤ i + 1 := fun hc => by simpa using hs0.mpr hc
    omega

theorem network_sorts_witness :
    ([3, 1, 2, 0] : List Int).length = 2 ^ 2 ∧
      List.Chain' (· ≤ ·) (benyanRun 2 [3, 1, 2, 0]) :=
  ⟨by decide, network_sorts 2 [3, 1, 2, 0] (by decide)⟩

end Banyan
